import Mathlib

/-!
Verification development for the `wfc-rs` repository (Wave Function Collapse,
overlapping-pattern formulation).

The development shallowly embeds the core of the repository:

* `src/direction.rs` — the `Direction` enum and its algebra;
* `src/pattern.rs`   — `Color`, `Pattern`, `get_side`, `overlaps`;
* `src/table.rs`     — the row-major grid (`width`, `height`, `idx_to_pos`,
  `get_neighbors`, indexing by `x * width + y`);
* `src/wfc.rs`       — `build_constraints`, the solver internals `observe`
  and `propagate`, and `generate` (solver loop, final assertion, rendering).

Modelling conventions, written next to the definition they concern:

* machine integers are modelled as `Nat`/`Int` (no arithmetic here overflows:
  the Rust code uses `usize` indices into in-bounds vectors);
* `HashSet`-valued intermediate results are modelled as deduplicated lists,
  keeping the order of the underlying scan (the Rust iteration order of a
  `HashSet` is unspecified; every claim below is insensitive to that order);
* Rust panics (vector index out of bounds, `put_pixel` out of bounds, the
  `assert!` in `generate`) are modelled as the dedicated error `Err.fault`,
  kept distinct from the dedicated `panic!("Contradiction")` which is
  modelled as `Err.contradiction`;
* the solver's per-cell domains hold pattern identifiers (`Nat`); the
  constraints table is the function `ct : Nat → Nat → Dir → Bool` obtained
  from `build_constraints`.  `Wfc::generate`'s entropy cells hold
  `&Pattern` values compared by pixel content; for the deduplicated pattern
  sets produced by `get_patterns` this is the same thing up to the bijection
  between patterns and their ids;
* the randomness source is an abstract stream, exactly as the spec's
  "external interfaces" section describes it: `observe` consumes two draws
  `r1, r2` (cell choice among ties, pattern choice inside the chosen cell),
  and the solver loop consumes one pair of draws per round via
  `rnd : Nat → Nat × Nat`;
* the two loops (`propagate`'s work stack, `generate`'s observe loop) are
  written with an explicit fuel counter and a distinguished `Err.fuelOut`
  result; the termination theorem (claim C6) proves that the fuel bounds
  used by `propagate` and `solveGrid` are never exhausted, so the fuelled
  functions agree with the (partial-looking, actually total) Rust loops.
-/

namespace Wfc

/-! ### Directions (`src/direction.rs`) -/

/-- `Direction` from `src/direction.rs`. -/
inductive Dir where
  | up
  | down
  | right
  | left
deriving DecidableEq, Repr

/-- `usize::from(Direction)`: Up=0, Right=1, Down=2, Left=3. -/
def Dir.bit : Dir → Nat
  | .up => 0
  | .right => 1
  | .down => 2
  | .left => 3

/-- `Direction::opposite`. -/
def Dir.opposite : Dir → Dir
  | .up => .down
  | .down => .up
  | .right => .left
  | .left => .right

/-- `Direction::all()`, in source order. -/
def Dir.all : List Dir := [.up, .right, .down, .left]

/-- `Direction::add_pos`: the neighbour position in direction `d`. -/
def Dir.addPos : Dir → Int × Int → Int × Int
  | .up, (x, y) => (x - 1, y)
  | .right, (x, y) => (x, y + 1)
  | .down, (x, y) => (x + 1, y)
  | .left, (x, y) => (x, y - 1)

/-- `Direction::from_neighbors`, recovering the direction from the unit
displacement.  The Rust code panics on a non-unit displacement; that branch is
unreachable for positions produced by `get_neighbors`, and the model returns
`.left` there (the last match arm). -/
def Dir.fromNeighbors (p q : Nat × Nat) : Dir :=
  let dx : Int := (q.1 : Int) - (p.1 : Int)
  let dy : Int := (q.2 : Int) - (p.2 : Int)
  if dx = -1 ∧ dy = 0 then .up
  else if dx = 0 ∧ dy = 1 then .right
  else if dx = 1 ∧ dy = 0 then .down
  else .left

/-! ### The grid (`src/table.rs`)

`Table<T>` stores a flat vector and a width; position `(x, y)` lives at linear
index `x * width + y`.  `height()` is `len / width`, `idx_to_pos` is
`(idx / height, idx % width)` (exactly as written in the source — note the
division by `height`), and `get_neighbors` keeps a candidate `(dx, dy)` when
`0 ≤ dx`, `0 ≤ dy`, `dx < width` and `dy < height`.  `WfcI::propagate`
consumes the neighbour entries as positions, which is how we model the
enumeration. -/

/-- Linear index of position `(x, y)` in a table of width `w`
(`Index<(usize, usize)>` in `src/table.rs`). -/
def posIdx (w : Nat) (p : Nat × Nat) : Nat := p.1 * w + p.2

/-- `Table::height()` for a table of `n` elements and width `w`. -/
def heightT (w n : Nat) : Nat := n / w

/-- `Table::idx_to_pos`: `(idx / height, idx % width)`, as in the source. -/
def idxToPos (w n idx : Nat) : Nat × Nat :=
  (idx / heightT w n, idx % w)

/-- `Table::get_neighbors`, yielding the in-bounds neighbour positions of
`(x, y)` in source direction order.  The bounds test is the one written in
`src/table.rs`: keep `(dx, dy)` when `0 ≤ dx ∧ 0 ≤ dy ∧ dx < width ∧
dy < height`. -/
def getNeighborsPos (w n : Nat) (p : Nat × Nat) : List (Nat × Nat) :=
  Dir.all.filterMap fun d =>
    if 0 ≤ (d.addPos ((p.1 : Int), (p.2 : Int))).1 ∧
        0 ≤ (d.addPos ((p.1 : Int), (p.2 : Int))).2 ∧
        (d.addPos ((p.1 : Int), (p.2 : Int))).1 < (w : Int) ∧
        (d.addPos ((p.1 : Int), (p.2 : Int))).2 < (heightT w n : Int) then
      some ((d.addPos ((p.1 : Int), (p.2 : Int))).1.toNat,
        (d.addPos ((p.1 : Int), (p.2 : Int))).2.toNat)
    else
      none

/-! ### The solver state (`src/wfc.rs`) -/

/-- A grid of entropy cells; cell `k` holds the list of pattern ids still
possible there (the Rust `Vec<&Pattern>`). -/
abbrev Grid := List (List Nat)

/-- The domain stored at linear cell `k` (out-of-range reads are routed
through `readCell` below where the Rust code would panic). -/
def cellAt (g : Grid) (k : Nat) : List Nat := g.getD k []

/-- Abort conditions of the modelled code: `contradiction` is the dedicated
`panic!("Contradiction")` of `propagate`; `fault` stands for every other Rust
panic (out-of-bounds indexing, the `assert!` in `generate`, `put_pixel` out of
bounds); `fuelOut` is the model-only fuel exhaustion marker, proved
unreachable for the fuel values used. -/
inductive Err where
  | contradiction
  | fault
  | fuelOut
deriving DecidableEq, Repr

/-- A vector read that panics when out of bounds. -/
def readCell (g : Grid) (k : Nat) : Except Err (List Nat) :=
  match g.get? k with
  | some l => .ok l
  | none => .error .fault

/-- The support set computed for one neighbour edge: the Rust code unions,
over `p` in the source domain `Di`, the candidates `q` of the neighbour
domain `Dn` with `C(p, q, d) = 1`, into a `HashSet`.  As a list we keep the
candidates of `Dn` in order, deduplicated (`HashSet` semantics): membership
is exactly `q ∈ Dn ∧ ∃ p ∈ Di, ct p q d`. -/
def support (ct : Nat → Nat → Dir → Bool) (Di Dn : List Nat) (d : Dir) :
    List Nat :=
  (Dn.filter fun q => Di.any fun p => ct p q d).dedup

/-- Processing of one neighbour edge inside `propagate`'s pop (the body of
the `for (nx, ny) in ... get_neighbors` loop in `src/wfc.rs`):
read the neighbour domain and the source domain, compute the support set,
panic with `Contradiction` if it is empty, push the neighbour (if its domain
length changed and it is not already on the stack), and write the support set
back into the neighbour cell. -/
def processNeighbor (ct : Nat → Nat → Dir → Bool) (w : Nat)
    (gs : Grid × List Nat) (sp np : Nat × Nat) :
    Except Err (Grid × List Nat) :=
  match readCell gs.1 (posIdx w np) with
  | .error e => .error e
  | .ok Dn =>
    match readCell gs.1 (posIdx w sp) with
    | .error e => .error e
    | .ok Di =>
      if (support ct Di Dn (Dir.fromNeighbors sp np)).isEmpty then
        .error .contradiction
      else
        .ok (gs.1.set (posIdx w np) (support ct Di Dn (Dir.fromNeighbors sp np)),
          if Dn.length ≠ (support ct Di Dn (Dir.fromNeighbors sp np)).length
              ∧ posIdx w np ∉ gs.2
          then posIdx w np :: gs.2 else gs.2)

/-- Fold of `processNeighbor` over the neighbour list of the popped cell. -/
def processNeighbors (ct : Nat → Nat → Dir → Bool) (w : Nat)
    (gs : Grid × List Nat) (sp : Nat × Nat) :
    List (Nat × Nat) → Except Err (Grid × List Nat)
  | [] => .ok gs
  | np :: rest =>
      match processNeighbor ct w gs sp np with
      | .error e => .error e
      | .ok gs' => processNeighbors ct w gs' sp rest

/-- One pop of `propagate`'s work stack: convert the popped linear index to a
position with `idx_to_pos`, enumerate its in-bounds neighbours, and process
each edge. -/
def processCell (ct : Nat → Nat → Dir → Bool) (w : Nat)
    (g : Grid) (s : List Nat) (i : Nat) : Except Err (Grid × List Nat) :=
  let sp := idxToPos w g.length i
  processNeighbors ct w (g, s) sp (getNeighborsPos w g.length sp)

/-- Total number of remaining possibilities over the whole grid; the
propagation measure. -/
def totalSize (g : Grid) : Nat := (g.map List.length).sum

/-- The `while let Some(current_idx) = stack.pop()` loop of `propagate`,
fuelled.  The stack is a LIFO list: pushes cons at the front, pops take the
head (mirroring `Vec::push`/`Vec::pop`). -/
def propagateGo (ct : Nat → Nat → Dir → Bool) (w : Nat) :
    Nat → Grid → List Nat → Except Err Grid
  | _, g, [] => .ok g
  | 0, _, _ :: _ => .error .fuelOut
  | fuel + 1, g, i :: rest =>
      match processCell ct w g rest i with
      | .error e => .error e
      | .ok gs => propagateGo ct w fuel gs.1 gs.2

/-- `WfcI::propagate`: start from the stack holding only the observed index.
The fuel `totalSize g + 1` is proved sufficient (claim C6). -/
def propagate (ct : Nat → Nat → Dir → Bool) (w : Nat) (g : Grid) (i : Nat) :
    Except Err Grid :=
  propagateGo ct w (totalSize g + 1) g [i]

/-! ### The observer (`WfcI::observe`) -/

/-- `WfcI::observe`, with the two randomness draws `r1` (choice among the
minimum-entropy cells) and `r2` (choice of a pattern inside the chosen cell)
taken as explicit inputs.  Mirrors the source: compute the minimum length
among cells of length `> 1` (`None` means done), enumerate the cells
attaining it, choose one, choose one of its patterns, overwrite the cell with
the singleton and return its linear index together with the new grid. -/
def observe (r1 r2 : Nat) (g : Grid) : Option (Nat × Grid) :=
  match ((g.map List.length).filter fun x => 1 < x).min? with
  | none => none
  | some m =>
      let idxs := (List.range g.length).filter fun k => (cellAt g k).length = m
      let idx := idxs.getD (r1 % idxs.length) 0
      let slot := cellAt g idx
      let p := slot.getD (r2 % slot.length) 0
      some (idx, g.set idx [p])

/-- The observe/propagate loop of `Wfc::generate`
(`while let Some(observed_idx) = solver.observe() { solver.propagate(..) }`),
fuelled; `round` indexes the randomness stream. -/
def loopGo (ct : Nat → Nat → Dir → Bool) (w : Nat) (rnd : Nat → Nat × Nat) :
    Nat → Nat → Grid → Except Err Grid
  | 0, _, _ => .error .fuelOut
  | fuel + 1, round, g =>
      match observe (rnd round).1 (rnd round).2 g with
      | none => .ok g
      | some (i, g') =>
          match propagate ct w g' i with
          | .error e => .error e
          | .ok g'' => loopGo ct w rnd fuel (round + 1) g''

/-- The solver part of `Wfc::generate`: the entropy grid starts with every one
of the `width * height` cells holding the full pattern list, then the
observe/propagate loop runs to completion.  The fuel `w * h + 1` is proved
sufficient (claim C6). -/
def solveGrid (ct : Nat → Nat → Dir → Bool) (initDom : List Nat)
    (w h : Nat) (rnd : Nat → Nat × Nat) : Except Err Grid :=
  loopGo ct w rnd (w * h + 1) 0 (List.replicate (w * h) initDom)

/-! ### Rendering (`Wfc::generate`, tail) -/

/-- An RGB color, `(r, g, b)`. -/
abbrev Color := Nat × Nat × Nat

/-- The output raster: `image::ImageBuffer` of the given dimensions, stored
row-major with pixel `(x, y)` at linear index `y * width + x` (the `image`
crate layout; `x` is the column coordinate). -/
structure ImageM where
  width : Nat
  height : Nat
  data : List Color
deriving DecidableEq, Repr

/-- `ImageBuffer::new(width, height)`: zero-initialised pixels. -/
def newImage (w h : Nat) : ImageM :=
  ⟨w, h, List.replicate (w * h) (0, 0, 0)⟩

/-- `ImageBuffer::put_pixel`, which panics when `x ≥ width` or `y ≥ height`. -/
def putPixel (img : ImageM) (x y : Nat) (c : Color) : Except Err ImageM :=
  if x < img.width ∧ y < img.height then
    .ok ⟨img.width, img.height, img.data.set (y * img.width + x) c⟩
  else
    .error .fault

/-- Pixel of the raster at `(x, y)` (column `x`, row `y`). -/
def pixelAt (img : ImageM) (x y : Nat) : Color :=
  img.data.getD (y * img.width + x) (0, 0, 0)

/-- Inner rendering loop over `j in 0..width` for a fixed `i`: the source
writes `put_pixel(i, j, first pixel of the sole pattern of cell i*width+j)`.
`pix0 id` is the first pixel (`pattern.pixels[0]`) of the pattern with id
`id`. -/
def renderRow (pix0 : Nat → Color) (w : Nat) (g : Grid) (i : Nat) :
    ImageM → List Nat → Except Err ImageM
  | img, [] => .ok img
  | img, j :: js =>
      match putPixel img i j (pix0 ((cellAt g (i * w + j)).headD 0)) with
      | .error e => .error e
      | .ok img' => renderRow pix0 w g i img' js

/-- Outer rendering loop over `i in 0..height`. -/
def renderGo (pix0 : Nat → Color) (w : Nat) (g : Grid) :
    ImageM → List Nat → Except Err ImageM
  | img, [] => .ok img
  | img, i :: is =>
      match renderRow pix0 w g i img (List.range w) with
      | .error e => .error e
      | .ok img' => renderGo pix0 w g img' is

/-- The rendering tail of `Wfc::generate`. -/
def render (pix0 : Nat → Color) (w h : Nat) (g : Grid) : Except Err ImageM :=
  renderGo pix0 w g (newImage w h) (List.range h)

/-- `Wfc::generate`: solve, assert every cell is a singleton, render.
A failed `assert!` is a Rust panic, modelled as `Err.fault`. -/
def generate (ct : Nat → Nat → Dir → Bool) (pix0 : Nat → Color)
    (initDom : List Nat) (w h : Nat) (rnd : Nat → Nat × Nat) :
    Except Err ImageM :=
  match solveGrid ct initDom w h rnd with
  | .error e => .error e
  | .ok g =>
      if g.all fun c => c.length = 1 then
        render pix0 w h g
      else
        .error .fault

/-! ### Patterns (`src/pattern.rs`) and the constraints builder (`src/wfc.rs`)

A `Pattern` is an identified `K×K` array of colors stored row-major with
local pixel `(x, y)` at index `x * size + y` (the `Index` impls in
`src/pattern.rs`).  `get_side` extracts the strip of the pattern facing a
direction, `overlaps` compares a strip of `self` with the strip of the other
pattern facing the opposite direction, and `Wfc::build_constraints` packs the
four `overlaps` answers for an ordered pattern pair into one byte, keyed by
the pair of pattern ids, bit `usize::from(d)` set iff allowed. -/

structure Pattern where
  id : Nat
  size : Nat
  pixels : List Color
deriving DecidableEq, Repr

/-- `Pattern`'s pixel access `self[(x, y)]` at index `x * size + y`. -/
def Pattern.pget (p : Pattern) (x y : Nat) : Color :=
  p.pixels.getD (x * p.size + y) (0, 0, 0)

/-- `Pattern::get_side`: the pixels of the side of the pattern facing the
given direction, in the loop order of the source (`x` outer, `y` inner). -/
def Pattern.getSide (p : Pattern) : Dir → List Color
  | .up =>
      (List.range (p.size - 1)).flatMap fun x =>
        (List.range p.size).map fun y => p.pget x y
  | .right =>
      (List.range p.size).flatMap fun x =>
        (List.range (p.size - 1)).map fun y => p.pget x (y + 1)
  | .down =>
      (List.range (p.size - 1)).flatMap fun x =>
        (List.range p.size).map fun y => p.pget (x + 1) y
  | .left =>
      (List.range p.size).flatMap fun x =>
        (List.range (p.size - 1)).map fun y => p.pget x y

/-- `Pattern::overlaps`: `self`'s side facing `d` equals `p2`'s side facing
`d.opposite`. -/
def Pattern.overlaps (p1 p2 : Pattern) (d : Dir) : Bool :=
  p1.getSide d == p2.getSide d.opposite

/-- The packed byte for one ordered pair in `Wfc::build_constraints`:
`row |= overlaps << usize::from(d)` over `Direction::all()`. -/
def ctRow (p1 p2 : Pattern) : Nat :=
  Dir.all.foldl (fun row d => row ||| ((p1.overlaps p2 d).toNat <<< d.bit)) 0

/-- `Wfc::build_constraints`: the association list of entries
`((p1.id, p2.id), row)` over the ordered pairs of the pattern list, in
iteration order (`p1` outer, `p2` inner).  The Rust `HashMap` keeps the last
insertion for a repeated key; `ctLookup` below looks entries up accordingly. -/
def buildConstraints (pats : List Pattern) : List ((Nat × Nat) × Nat) :=
  pats.flatMap fun p1 => pats.map fun p2 => ((p1.id, p2.id), ctRow p1 p2)

/-- `HashMap` lookup: the value of the last inserted entry with the key. -/
def ctLookup (t : List ((Nat × Nat) × Nat)) (k : Nat × Nat) : Nat :=
  ((t.reverse.find? fun e => e.1 = k).map fun e => e.2).getD 0

/-- The constraint bit `C(a, b, d)` read from the built table, extracting bit
`usize::from(d)` as `propagate` does (`constraints >> u8::from(direction) & 1`). -/
def cval (pats : List Pattern) (a b : Nat) (d : Dir) : Nat :=
  (ctLookup (buildConstraints pats) (a, b)) >>> d.bit &&& 1

/-- The constraints table as the Boolean function fed to the solver model:
allowed iff the bit is set. -/
def ctFun (pats : List Pattern) (a b : Nat) (d : Dir) : Bool :=
  cval pats a b d = 1

/-- The first pixel (`pattern.pixels[0]`) of the pattern with a given id, for
rendering; patterns are looked up by their `id` field. -/
def pixFun (pats : List Pattern) (i : Nat) : Color :=
  (((pats.find? fun p => p.id = i).getD ⟨0, 0, []⟩).pixels).headD (0, 0, 0)

/-! ### Auxiliary definitions used by the statements -/

/-- Number of not-yet-collapsed cells (domain size `> 1`). -/
def uncol (g : Grid) : Nat := List.countP (fun c => decide (1 < c.length)) g

/-- Orthogonal adjacency for a `w`-wide entropy grid of `w * h` cells: grid
position `(x, y)` (row `x ∈ [0, h)`, column `y ∈ [0, w)`) has the in-bounds
neighbour `(x', y')` in direction `d`. -/
def AdjN (w h : Nat) (x y x' y' : Nat) (d : Dir) : Prop :=
  x < h ∧ y < w ∧ x' < h ∧ y' < w ∧
    ((x' : Int), (y' : Int)) = d.addPos ((x : Int), (y : Int))

instance (w h x y x' y' : Nat) (d : Dir) : Decidable (AdjN w h x y x' y' d) := by
  unfold AdjN; infer_instance

/-- One directed edge of the entropy grid is support-consistent: every
pattern still possible at the target has a supporting pattern at the
source. -/
def EdgeConsistent (ct : Nat → Nat → Dir → Bool) (g : Grid) (i n : Nat)
    (d : Dir) : Prop :=
  ∀ q ∈ cellAt g n, ∃ p ∈ cellAt g i, ct p q d = true

/-- The AC-3 style invariant maintained by the solver: every directed edge of
the grid either has its source queued on the work stack, or its source still
holds the untouched initial domain, or it is support-consistent. -/
def Inv (ct : Nat → Nat → Dir → Bool) (w h : Nat) (initDom : List Nat)
    (g : Grid) (s : List Nat) : Prop :=
  ∀ x y x' y' d, AdjN w h x y x' y' d →
    posIdx w (x, y) ∈ s ∨ cellAt g (posIdx w (x, y)) = initDom ∨
    EdgeConsistent ct g (posIdx w (x, y)) (posIdx w (x', y')) d

/-- Witness that the neighbour fold of one popped cell hits an empty support
set: some prefix of the neighbour list is processed successfully and the
support set computed for the next edge is empty (the contradiction site of
`propagate` in `src/wfc.rs`). -/
inductive NeighContra (ct : Nat → Nat → Dir → Bool) (w : Nat) :
    Grid × List Nat → Nat × Nat → List (Nat × Nat) → Prop
  | here {gs : Grid × List Nat} {sp np : Nat × Nat} {rest : List (Nat × Nat)}
      {Dn Di : List Nat} :
      readCell gs.1 (posIdx w np) = .ok Dn →
      readCell gs.1 (posIdx w sp) = .ok Di →
      support ct Di Dn (Dir.fromNeighbors sp np) = [] →
      NeighContra ct w gs sp (np :: rest)
  | step {gs gs' : Grid × List Nat} {sp np : Nat × Nat}
      {rest : List (Nat × Nat)} :
      processNeighbor ct w gs sp np = .ok gs' →
      NeighContra ct w gs' sp rest →
      NeighContra ct w gs sp (np :: rest)

/-- Witness that the work-stack loop of `propagate` hits an empty support
set after finitely many successful pops. -/
inductive PropContra (ct : Nat → Nat → Dir → Bool) (w : Nat) :
    Grid → List Nat → Prop
  | here {g : Grid} {s : List Nat} {i : Nat} :
      NeighContra ct w (g, s) (idxToPos w g.length i)
        (getNeighborsPos w g.length (idxToPos w g.length i)) →
      PropContra ct w g (i :: s)
  | step {g : Grid} {s : List Nat} {i : Nat} {gs' : Grid × List Nat} :
      processCell ct w g s i = .ok gs' →
      PropContra ct w gs'.1 gs'.2 →
      PropContra ct w g (i :: s)

/-- Witness that the observe/propagate loop of `generate` reaches a round
whose propagation hits an empty support set. -/
inductive LoopContra (ct : Nat → Nat → Dir → Bool) (w : Nat)
    (rnd : Nat → Nat × Nat) : Nat → Grid → Prop
  | here {round : Nat} {g g' : Grid} {i : Nat} :
      observe (rnd round).1 (rnd round).2 g = some (i, g') →
      PropContra ct w g' [i] →
      LoopContra ct w rnd round g
  | step {round : Nat} {g g' g'' : Grid} {i : Nat} :
      observe (rnd round).1 (rnd round).2 g = some (i, g') →
      propagate ct w g' i = .ok g'' →
      LoopContra ct w rnd (round + 1) g'' →
      LoopContra ct w rnd round g

/-! ### Concrete instances used in counterexamples and witnesses -/

/-- The 2×2 pattern anchored at `(0, 0)` of the gradient texture
`t(x, y) = x + y` used by the repository's own tests: pixels
`[0, 1, 1, 2]`. -/
def patGrad : Pattern :=
  ⟨0, 2, [(0, 0, 0), (1, 0, 0), (1, 0, 0), (2, 0, 0)]⟩

/-- A 2×2 constant-color pattern. -/
def patConst : Pattern :=
  ⟨0, 2, [(5, 0, 0), (5, 0, 0), (5, 0, 0), (5, 0, 0)]⟩

/-- A constraints table allowing everything. -/
def ctAll : Nat → Nat → Dir → Bool := fun _ _ _ => true

/-- A trivial pixel map. -/
def pixZero : Nat → Color := fun _ => (0, 0, 0)

/-- A constant randomness stream. -/
def rndZero : Nat → Nat × Nat := fun _ => (0, 0)

/-! ### Basic lemmas about cells and the support set -/

theorem cellAt_of_get? {g : Grid} {k : Nat} {l : List Nat}
    (h : g.get? k = some l) : cellAt g k = l := by
  simp [cellAt, List.getD_eq_getElem?_getD, ← List.get?_eq_getElem?, h]

theorem cellAt_set_self {g : Grid} {k : Nat} {l : List Nat}
    (h : k < g.length) : cellAt (g.set k l) k = l := by
  simp [cellAt, List.getD_eq_getElem?_getD, List.getElem?_set_self', h,
    List.getElem?_eq_getElem]

theorem cellAt_set_ne {g : Grid} {k n : Nat} {l : List Nat}
    (h : k ≠ n) : cellAt (g.set n l) k = cellAt g k := by
  simp [cellAt, List.getD_eq_getElem?_getD, List.getElem?_set_ne (Ne.symm h)]

theorem get?_lt_length {g : Grid} {k : Nat} {l : List Nat}
    (h : g.get? k = some l) : k < g.length := by
  rw [List.get?_eq_getElem?] at h
  exact List.getElem?_eq_some_iff.mp h |>.1

theorem readCell_ok {g : Grid} {k : Nat} {l : List Nat} :
    readCell g k = .ok l ↔ g.get? k = some l := by
  unfold readCell
  cases h : g.get? k <;> simp

theorem support_sublist (ct : Nat → Nat → Dir → Bool) (Di Dn : List Nat)
    (d : Dir) : List.Sublist (support ct Di Dn d) Dn :=
  (List.dedup_sublist _).trans (List.filter_sublist _)

theorem support_nodup (ct : Nat → Nat → Dir → Bool) (Di Dn : List Nat)
    (d : Dir) : (support ct Di Dn d).Nodup :=
  List.nodup_dedup _

theorem mem_support {ct : Nat → Nat → Dir → Bool} {Di Dn : List Nat}
    {d : Dir} {q : Nat} :
    q ∈ support ct Di Dn d ↔ q ∈ Dn ∧ ∃ p ∈ Di, ct p q d = true := by
  simp [support, List.mem_filter, List.any_eq_true]

/-- Elimination principle for a successful edge processing step. -/
theorem processNeighbor_ok {ct : Nat → Nat → Dir → Bool} {w : Nat}
    {g g' : Grid} {s s' : List Nat} {sp np : Nat × Nat}
    (h : processNeighbor ct w (g, s) sp np = .ok (g', s')) :
    ∃ Dn Di,
      g.get? (posIdx w np) = some Dn ∧
      g.get? (posIdx w sp) = some Di ∧
      support ct Di Dn (Dir.fromNeighbors sp np) ≠ [] ∧
      g' = g.set (posIdx w np) (support ct Di Dn (Dir.fromNeighbors sp np)) ∧
      s' = if Dn.length ≠ (support ct Di Dn (Dir.fromNeighbors sp np)).length
              ∧ posIdx w np ∉ s
           then posIdx w np :: s else s := by
  unfold processNeighbor at h
  split at h
  · exact absurd h (by simp)
  next Dn hDn =>
    split at h
    · exact absurd h (by simp)
    next Di hDi =>
      split at h
      · exact absurd h (by simp)
      next hne =>
        rw [Except.ok.injEq, Prod.mk.injEq] at h
        exact ⟨Dn, Di, readCell_ok.mp hDn, readCell_ok.mp hDi,
          by simpa [List.isEmpty_iff] using hne, h.1.symm, h.2.symm⟩

/-! ### Domains only shrink (pointwise sublists), grid length is preserved -/

theorem processNeighbor_length {ct : Nat → Nat → Dir → Bool} {w : Nat}
    {g g' : Grid} {s s' : List Nat} {sp np : Nat × Nat}
    (h : processNeighbor ct w (g, s) sp np = .ok (g', s')) :
    g'.length = g.length := by
  obtain ⟨Dn, Di, _, _, _, hg, _⟩ := processNeighbor_ok h
  simp [hg]

theorem processNeighbor_pw {ct : Nat → Nat → Dir → Bool} {w : Nat}
    {g g' : Grid} {s s' : List Nat} {sp np : Nat × Nat}
    (h : processNeighbor ct w (g, s) sp np = .ok (g', s')) (k : Nat) :
    List.Sublist (cellAt g' k) (cellAt g k) := by
  obtain ⟨Dn, Di, hDn, _, _, hg, _⟩ := processNeighbor_ok h
  subst hg
  by_cases hk : k = posIdx w np
  · subst hk
    rw [cellAt_set_self (get?_lt_length hDn), cellAt_of_get? hDn]
    exact support_sublist ..
  · rw [cellAt_set_ne hk]

theorem processNeighbor_stack_grow {ct : Nat → Nat → Dir → Bool} {w : Nat}
    {g g' : Grid} {s s' : List Nat} {sp np : Nat × Nat}
    (h : processNeighbor ct w (g, s) sp np = .ok (g', s')) :
    ∀ j ∈ s, j ∈ s' := by
  obtain ⟨Dn, Di, _, _, _, _, hs⟩ := processNeighbor_ok h
  subst hs
  intro j hj
  split <;> simp [hj]

/-- Any cell whose domain changed during one edge step is on the new stack. -/
theorem processNeighbor_changed_mem {ct : Nat → Nat → Dir → Bool} {w : Nat}
    {g g' : Grid} {s s' : List Nat} {sp np : Nat × Nat}
    (h : processNeighbor ct w (g, s) sp np = .ok (g', s')) (k : Nat)
    (hch : cellAt g' k ≠ cellAt g k) : k ∈ s' := by
  obtain ⟨Dn, Di, hDn, _, _, hg, hs⟩ := processNeighbor_ok h
  subst hg hs
  by_cases hk : k = posIdx w np
  · subst hk
    rw [cellAt_set_self (get?_lt_length hDn), cellAt_of_get? hDn] at hch
    have hlen : (support ct Di Dn (Dir.fromNeighbors sp np)).length ≠ Dn.length :=
      fun he => hch ((support_sublist ..).eq_of_length he)
    by_cases hmem : posIdx w np ∈ s
    · split <;> simp [hmem]
    · simp [Ne.symm hlen, hmem]
  · exact absurd (cellAt_set_ne hk) hch

theorem totalSize_set {g : Grid} {n : Nat} (l : List Nat) (h : n < g.length) :
    totalSize (g.set n l) + (cellAt g n).length = totalSize g + l.length := by
  induction g generalizing n with
  | nil => simp at h
  | cons c t ih =>
      cases n with
      | zero => simp [totalSize, cellAt]; omega
      | succ n =>
          have := ih (n := n) (by simpa using h)
          simp only [List.set, totalSize, List.map, List.sum_cons, cellAt,
            List.getD] at this ⊢
          simp only [List.get?] at this ⊢
          omega

/-- One edge step never increases the propagation measure
`totalSize + stack length`. -/
theorem processNeighbor_measure {ct : Nat → Nat → Dir → Bool} {w : Nat}
    {g g' : Grid} {s s' : List Nat} {sp np : Nat × Nat}
    (h : processNeighbor ct w (g, s) sp np = .ok (g', s')) :
    totalSize g' + s'.length ≤ totalSize g + s.length := by
  obtain ⟨Dn, Di, hDn, _, _, hg, hs⟩ := processNeighbor_ok h
  subst hg hs
  have hlt := get?_lt_length hDn
  have hset := totalSize_set (g := g) (n := posIdx w np)
    (support ct Di Dn (Dir.fromNeighbors sp np)) hlt
  rw [cellAt_of_get? hDn] at hset
  have hsub : (support ct Di Dn (Dir.fromNeighbors sp np)).length ≤ Dn.length :=
    (support_sublist ..).length_le
  split
  next hc =>
    have : (support ct Di Dn (Dir.fromNeighbors sp np)).length < Dn.length :=
      lt_of_le_of_ne hsub (fun he => hc.1 he.symm)
    simp only [List.length_cons]
    omega
  · omega

theorem readCell_error {g : Grid} {k : Nat} {e : Err}
    (h : readCell g k = .error e) : e = .fault := by
  unfold readCell at h
  split at h <;> simp_all

theorem processNeighbor_error {ct : Nat → Nat → Dir → Bool} {w : Nat}
    {gs : Grid × List Nat} {sp np : Nat × Nat} {e : Err}
    (h : processNeighbor ct w gs sp np = .error e) :
    e = .fault ∨ e = .contradiction := by
  unfold processNeighbor at h
  split at h
  next e' he => exact Or.inl (by cases h; exact readCell_error he)
  split at h
  next e' he => exact Or.inl (by cases h; exact readCell_error he)
  split at h
  · cases h; exact Or.inr rfl
  · simp at h

/-! Lifting the per-edge lemmas through the neighbour fold and the stack
loop. -/

theorem processNeighbors_length {ct : Nat → Nat → Dir → Bool} {w : Nat} :
    ∀ {l : List (Nat × Nat)} {g g' : Grid} {s s' : List Nat} {sp : Nat × Nat},
      processNeighbors ct w (g, s) sp l = .ok (g', s') → g'.length = g.length
  | [], g, g', s, s', sp, h => by
      simp only [processNeighbors, Except.ok.injEq, Prod.mk.injEq] at h
      rw [h.1]
  | np :: rest, g, g', s, s', sp, h => by
      rw [processNeighbors] at h
      split at h
      · simp at h
      next gs' hok =>
        obtain ⟨g1, s1⟩ := gs'
        exact (processNeighbors_length h).trans (processNeighbor_length hok)

theorem processNeighbors_pw {ct : Nat → Nat → Dir → Bool} {w : Nat} :
    ∀ {l : List (Nat × Nat)} {g g' : Grid} {s s' : List Nat} {sp : Nat × Nat},
      processNeighbors ct w (g, s) sp l = .ok (g', s') →
      ∀ k, List.Sublist (cellAt g' k) (cellAt g k)
  | [], g, g', s, s', sp, h, k => by
      simp only [processNeighbors, Except.ok.injEq, Prod.mk.injEq] at h
      rw [h.1]
  | np :: rest, g, g', s, s', sp, h, k => by
      rw [processNeighbors] at h
      split at h
      · simp at h
      next gs' hok =>
        obtain ⟨g1, s1⟩ := gs'
        exact (processNeighbors_pw h k).trans (processNeighbor_pw hok k)

theorem processNeighbors_stack_grow {ct : Nat → Nat → Dir → Bool} {w : Nat} :
    ∀ {l : List (Nat × Nat)} {g g' : Grid} {s s' : List Nat} {sp : Nat × Nat},
      processNeighbors ct w (g, s) sp l = .ok (g', s') → ∀ j ∈ s, j ∈ s'
  | [], g, g', s, s', sp, h, j, hj => by
      simp only [processNeighbors, Except.ok.injEq, Prod.mk.injEq] at h
      rw [← h.2]; exact hj
  | np :: rest, g, g', s, s', sp, h, j, hj => by
      rw [processNeighbors] at h
      split at h
      · simp at h
      next gs' hok =>
        obtain ⟨g1, s1⟩ := gs'
        exact processNeighbors_stack_grow h j
          (processNeighbor_stack_grow hok j hj)

theorem processNeighbors_changed_mem {ct : Nat → Nat → Dir → Bool} {w : Nat} :
    ∀ {l : List (Nat × Nat)} {g g' : Grid} {s s' : List Nat} {sp : Nat × Nat},
      processNeighbors ct w (g, s) sp l = .ok (g', s') →
      ∀ k, cellAt g' k ≠ cellAt g k → k ∈ s'
  | [], g, g', s, s', sp, h, k, hch => by
      simp only [processNeighbors, Except.ok.injEq, Prod.mk.injEq] at h
      exact absurd (by rw [h.1]) hch
  | np :: rest, g, g', s, s', sp, h, k, hch => by
      rw [processNeighbors] at h
      split at h
      · simp at h
      next gs' hok =>
        obtain ⟨g1, s1⟩ := gs'
        by_cases h1 : cellAt g1 k = cellAt g k
        · exact processNeighbors_changed_mem h k (fun he => hch (he.trans h1))
        · exact processNeighbors_stack_grow h k
            (processNeighbor_changed_mem hok k h1)

theorem processNeighbors_measure {ct : Nat → Nat → Dir → Bool} {w : Nat} :
    ∀ {l : List (Nat × Nat)} {g g' : Grid} {s s' : List Nat} {sp : Nat × Nat},
      processNeighbors ct w (g, s) sp l = .ok (g', s') →
      totalSize g' + s'.length ≤ totalSize g + s.length
  | [], g, g', s, s', sp, h => by
      simp only [processNeighbors, Except.ok.injEq, Prod.mk.injEq] at h
      rw [h.1, h.2]
  | np :: rest, g, g', s, s', sp, h => by
      rw [processNeighbors] at h
      split at h
      · simp at h
      next gs' hok =>
        obtain ⟨g1, s1⟩ := gs'
        exact (processNeighbors_measure h).trans (processNeighbor_measure hok)

theorem processNeighbors_error {ct : Nat → Nat → Dir → Bool} {w : Nat} :
    ∀ {l : List (Nat × Nat)} {gs : Grid × List Nat} {sp : Nat × Nat} {e : Err},
      processNeighbors ct w gs sp l = .error e →
      e = .fault ∨ e = .contradiction
  | [], gs, sp, e, h => by simp [processNeighbors] at h
  | np :: rest, gs, sp, e, h => by
      rw [processNeighbors] at h
      split at h
      next e' he => exact (Except.error.injEq _ _ ▸ h) ▸ processNeighbor_error he
      · exact processNeighbors_error h

theorem processCell_length {ct : Nat → Nat → Dir → Bool} {w : Nat}
    {g g' : Grid} {s s' : List Nat} {i : Nat}
    (h : processCell ct w g s i = .ok (g', s')) : g'.length = g.length :=
  processNeighbors_length h

theorem processCell_pw {ct : Nat → Nat → Dir → Bool} {w : Nat}
    {g g' : Grid} {s s' : List Nat} {i : Nat}
    (h : processCell ct w g s i = .ok (g', s')) :
    ∀ k, List.Sublist (cellAt g' k) (cellAt g k) :=
  processNeighbors_pw h

theorem processCell_measure {ct : Nat → Nat → Dir → Bool} {w : Nat}
    {g g' : Grid} {s s' : List Nat} {i : Nat}
    (h : processCell ct w g s i = .ok (g', s')) :
    totalSize g' + s'.length ≤ totalSize g + s.length :=
  processNeighbors_measure h

theorem processCell_error {ct : Nat → Nat → Dir → Bool} {w : Nat}
    {g : Grid} {s : List Nat} {i : Nat} {e : Err}
    (h : processCell ct w g s i = .error e) :
    e = .fault ∨ e = .contradiction :=
  processNeighbors_error h

theorem propagateGo_length {ct : Nat → Nat → Dir → Bool} {w : Nat} :
    ∀ {fuel : Nat} {g g' : Grid} {s : List Nat},
      propagateGo ct w fuel g s = .ok g' → g'.length = g.length := by
  intro fuel
  induction fuel with
  | zero =>
      intro g g' s h
      cases s with
      | nil => cases h; rfl
      | cons i rest => simp [propagateGo] at h
  | succ fuel ih =>
      intro g g' s h
      cases s with
      | nil => cases h; rfl
      | cons i rest =>
          rw [propagateGo] at h
          split at h
          · simp at h
          next gs hok =>
            obtain ⟨g1, s1⟩ := gs
            exact (ih h).trans (processCell_length hok)

theorem propagateGo_pw {ct : Nat → Nat → Dir → Bool} {w : Nat} :
    ∀ {fuel : Nat} {g g' : Grid} {s : List Nat},
      propagateGo ct w fuel g s = .ok g' →
      ∀ k, List.Sublist (cellAt g' k) (cellAt g k) := by
  intro fuel
  induction fuel with
  | zero =>
      intro g g' s h k
      cases s with
      | nil => cases h; rfl
      | cons i rest => simp [propagateGo] at h
  | succ fuel ih =>
      intro g g' s h k
      cases s with
      | nil => cases h; rfl
      | cons i rest =>
          rw [propagateGo] at h
          split at h
          · simp at h
          next gs hok =>
            obtain ⟨g1, s1⟩ := gs
            exact (ih h k).trans (processCell_pw hok k)

theorem propagateGo_error {ct : Nat → Nat → Dir → Bool} {w : Nat} :
    ∀ {fuel : Nat} {g : Grid} {s : List Nat} {e : Err},
      propagateGo ct w fuel g s = .error e →
      totalSize g + s.length ≤ fuel →
      e = .fault ∨ e = .contradiction := by
  intro fuel
  induction fuel with
  | zero =>
      intro g s e h hm
      cases s with
      | nil => cases h
      | cons i rest => simp [List.length_cons] at hm
  | succ fuel ih =>
      intro g s e h hm
      cases s with
      | nil => cases h
      | cons i rest =>
          rw [propagateGo] at h
          split at h
          next e' he => exact (Except.error.injEq _ _ ▸ h) ▸ processCell_error he
          next gs hok =>
            obtain ⟨g1, s1⟩ := gs
            refine ih h ?_
            show totalSize g1 + s1.length ≤ fuel
            have := processCell_measure hok
            simp only [List.length_cons] at hm
            omega

/-- Claim C6, propagation part: with fuel `totalSize g + 1`, the work-stack
loop started from a singleton stack never exhausts its fuel: every
`propagate` call terminates within the measure bound. -/
theorem propagate_ne_fuelOut (ct : Nat → Nat → Dir → Bool) (w : Nat)
    (g : Grid) (i : Nat) : propagate ct w g i ≠ .error .fuelOut := by
  intro h
  rcases propagateGo_error h (by simp) with h' | h' <;> cases h'

theorem propagate_length {ct : Nat → Nat → Dir → Bool} {w : Nat}
    {g g' : Grid} {i : Nat} (h : propagate ct w g i = .ok g') :
    g'.length = g.length :=
  propagateGo_length h

theorem propagate_pw {ct : Nat → Nat → Dir → Bool} {w : Nat}
    {g g' : Grid} {i : Nat} (h : propagate ct w g i = .ok g') :
    ∀ k, List.Sublist (cellAt g' k) (cellAt g k) :=
  propagateGo_pw h

/-! ### Observer lemmas -/

theorem getD_mem {α : Type _} {l : List α} {n : Nat} {d : α}
    (h : n < l.length) : l.getD n d ∈ l := by
  rw [List.getD_eq_getElem?_getD, List.getElem?_eq_getElem h]
  exact List.getElem_mem h

theorem cellAt_eq_getElem {g : Grid} {k : Nat} (h : k < g.length) :
    cellAt g k = g[k] := by
  rw [cellAt, List.getD_eq_getElem?_getD, List.getElem?_eq_getElem h]
  rfl

theorem observe_none_iff {r1 r2 : Nat} {g : Grid} :
    observe r1 r2 g = none ↔ ∀ c ∈ g, c.length ≤ 1 := by
  unfold observe
  split
  next hm =>
      simp only [true_iff]
      intro c hc
      by_contra hgt
      have : c.length ∈ (g.map List.length).filter fun x => 1 < x := by
        simp only [List.mem_filter, List.mem_map]
        exact ⟨⟨c, hc, rfl⟩, by simpa using Nat.lt_of_not_le hgt⟩
      rw [List.min?_eq_none_iff] at hm
      simp [hm] at this
  next m hm =>
      simp only [reduceCtorEq, false_iff, not_forall]
      have hmem := (List.min?_eq_some_iff'.mp hm).1
      simp only [List.mem_filter, List.mem_map] at hmem
      obtain ⟨⟨c, hc, hlen⟩, hgt⟩ := hmem
      replace hgt : 1 < m := by simpa using hgt
      exact ⟨c, hc, by simp only [hlen]; omega⟩

/-- Elimination principle for a successful `observe`: characterises the
chosen cell, the minimality of its entropy, the written singleton, and the
sets of outcomes reachable by varying either randomness draw. -/
theorem observe_some {r1 r2 : Nat} {g : Grid} {i : Nat} {g' : Grid}
    (h : observe r1 r2 g = some (i, g')) :
    i < g.length ∧ 1 < (cellAt g i).length ∧
    (∀ c ∈ g, 1 < c.length → (cellAt g i).length ≤ c.length) ∧
    (∃ p ∈ cellAt g i, g' = g.set i [p]) ∧
    (∀ j, j < g.length → (cellAt g j).length = (cellAt g i).length →
      ∃ r1' g'', observe r1' r2 g = some (j, g'')) ∧
    (∀ q ∈ cellAt g i, ∃ r2', observe r1 r2' g = some (i, g.set i [q])) := by
  rw [observe] at h
  split at h
  · cases h
  next m hm =>
    obtain ⟨hmemf, hle⟩ := List.min?_eq_some_iff'.mp hm
    simp only [List.mem_filter, List.mem_map] at hmemf
    obtain ⟨⟨c, hc, hclen⟩, hgt⟩ := hmemf
    replace hgt : 1 < m := by simpa using hgt
    have hle' : ∀ c' ∈ g, 1 < c'.length → m ≤ c'.length := by
      intro c' hc' hgt'
      exact hle _ (by
        simp only [List.mem_filter, List.mem_map]
        exact ⟨⟨c', hc', rfl⟩, by simpa using hgt'⟩)
    obtain ⟨k, hk, hkc⟩ := List.mem_iff_getElem.mp hc
    have hkmem : k ∈ (List.range g.length).filter
        fun k => (cellAt g k).length = m := by
      simp only [List.mem_filter, List.mem_range]
      exact ⟨hk, by rw [cellAt_eq_getElem hk, hkc, hclen]; simp⟩
    have hne : ((List.range g.length).filter
        fun k => (cellAt g k).length = m).length ≠ 0 :=
      fun h0 => by simp [List.length_eq_zero.mp h0] at hkmem
    set idxs := (List.range g.length).filter
        fun k => (cellAt g k).length = m with hidxs
    have hr1 : r1 % idxs.length < idxs.length :=
      Nat.mod_lt _ (Nat.pos_of_ne_zero hne)
    have hidxmem : idxs.getD (r1 % idxs.length) 0 ∈ idxs := getD_mem hr1
    have hidx : idxs.getD (r1 % idxs.length) 0 < g.length ∧
        (cellAt g (idxs.getD (r1 % idxs.length) 0)).length = m := by
      have := hidxmem
      simp only [hidxs, List.mem_filter, List.mem_range] at this
      exact ⟨this.1, by simpa using this.2⟩
    have hslot : 0 < (cellAt g (idxs.getD (r1 % idxs.length) 0)).length := by
      omega
    have hr2 : r2 % (cellAt g (idxs.getD (r1 % idxs.length) 0)).length <
        (cellAt g (idxs.getD (r1 % idxs.length) 0)).length :=
      Nat.mod_lt _ hslot
    have hpmem : (cellAt g (idxs.getD (r1 % idxs.length) 0)).getD
        (r2 % (cellAt g (idxs.getD (r1 % idxs.length) 0)).length) 0 ∈
        cellAt g (idxs.getD (r1 % idxs.length) 0) := getD_mem hr2
    rw [Option.some.injEq, Prod.mk.injEq] at h
    obtain ⟨hi, hg'⟩ := h
    subst hi
    refine ⟨hidx.1, by rw [hidx.2]; exact hgt,
      by rw [hidx.2]; exact hle', ⟨_, hpmem, hg'.symm⟩, ?_, ?_⟩
    · -- every minimum-entropy cell is reachable by varying the first draw
      intro j hj hjlen
      rw [hidx.2] at hjlen
      have hjmem : j ∈ idxs := by
        simp only [hidxs, List.mem_filter, List.mem_range]
        exact ⟨hj, by simpa using hjlen⟩
      have hlt : idxs.indexOf j < idxs.length := List.indexOf_lt_length.mpr hjmem
      have hgetj : idxs.getD (idxs.indexOf j % idxs.length) 0 = j := by
        rw [Nat.mod_eq_of_lt hlt, List.getD_eq_getElem?_getD,
          List.getElem?_eq_getElem hlt, Option.getD_some, List.getElem_indexOf]
      refine ⟨idxs.indexOf j,
        g.set j [(cellAt g j).getD (r2 % (cellAt g j).length) 0], ?_⟩
      rw [observe, hm]
      simp only [← hidxs, hgetj]
    · -- every pattern of the chosen cell is reachable by varying the second
      intro q hq
      have hlt : (cellAt g (idxs.getD (r1 % idxs.length) 0)).indexOf q <
          (cellAt g (idxs.getD (r1 % idxs.length) 0)).length :=
        List.indexOf_lt_length.mpr hq
      have hgetq : (cellAt g (idxs.getD (r1 % idxs.length) 0)).getD
          ((cellAt g (idxs.getD (r1 % idxs.length) 0)).indexOf q %
            (cellAt g (idxs.getD (r1 % idxs.length) 0)).length) 0 = q := by
        rw [Nat.mod_eq_of_lt hlt, List.getD_eq_getElem?_getD,
          List.getElem?_eq_getElem hlt, Option.getD_some, List.getElem_indexOf]
      refine ⟨(cellAt g (idxs.getD (r1 % idxs.length) 0)).indexOf q, ?_⟩
      rw [observe, hm]
      simp only [← hidxs, hgetq]

/-! ### The observe/propagate loop: counting uncollapsed cells -/

theorem observe_length {r1 r2 : Nat} {g : Grid} {i : Nat} {g' : Grid}
    (h : observe r1 r2 g = some (i, g')) : g'.length = g.length := by
  obtain ⟨_, _, _, ⟨p, _, hg⟩, _, _⟩ := observe_some h
  simp [hg]

theorem observe_pw {r1 r2 : Nat} {g : Grid} {i : Nat} {g' : Grid}
    (h : observe r1 r2 g = some (i, g')) :
    ∀ k, List.Sublist (cellAt g' k) (cellAt g k) := by
  obtain ⟨hi, _, _, ⟨p, hp, hg⟩, _, _⟩ := observe_some h
  subst hg
  intro k
  by_cases hk : k = i
  · subst hk
    rw [cellAt_set_self hi]
    exact (List.singleton_sublist).mpr hp
  · rw [cellAt_set_ne hk]

theorem uncol_set_singleton {g : Grid} {i : Nat} (p : Nat)
    (hi : i < g.length) (hgt : 1 < (cellAt g i).length) :
    uncol (g.set i [p]) < uncol g := by
  induction g generalizing i with
  | nil => simp at hi
  | cons c t ih =>
      cases i with
      | zero =>
          rw [cellAt_eq_getElem hi] at hgt
          simp only [List.getElem_cons_zero] at hgt
          simp only [List.set, uncol, List.countP_cons]
          have ht := List.countP_le_length (l := t)
            (p := fun c => decide (1 < c.length))
          simp only [uncol] at *
          simp [hgt]
      | succ i =>
          have hi' : i < t.length := by simpa using hi
          have hgt' : 1 < (cellAt t i).length := by
            rw [cellAt_eq_getElem hi'] at *
            rw [cellAt_eq_getElem hi] at hgt
            simpa using hgt
          have := ih hi' hgt'
          simp only [List.set, uncol, List.countP_cons] at *
          omega

theorem uncol_le_of_pw {g' g : Grid} (hlen : g'.length = g.length)
    (hpw : ∀ k, (cellAt g' k).length ≤ (cellAt g k).length) :
    uncol g' ≤ uncol g := by
  induction g' generalizing g with
  | nil => simp [uncol]
  | cons c' t' ih =>
      cases g with
      | nil => simp at hlen
      | cons c t =>
          have h0 := hpw 0
          simp only [cellAt, List.getD_cons_zero] at h0
          have ht : uncol t' ≤ uncol t := by
            refine ih (by simpa using hlen) ?_
            intro k
            have := hpw (k + 1)
            simpa only [cellAt, List.getD_cons_succ] using this
          simp only [uncol, List.countP_cons] at *
          by_cases h1 : 1 < c'.length
          · have h2 : 1 < c.length := by omega
            rw [if_pos (by simpa using h1), if_pos (by simpa using h2)]
            omega
          · rw [if_neg (by simpa using h1)]
            split <;> omega

/-- A solver round (`observe` then `propagate`) strictly decreases the number
of uncollapsed cells. -/
theorem round_uncol_lt {ct : Nat → Nat → Dir → Bool} {w : Nat}
    {r1 r2 : Nat} {g g' g'' : Grid} {i : Nat}
    (hobs : observe r1 r2 g = some (i, g'))
    (hpro : propagate ct w g' i = .ok g'') : uncol g'' < uncol g := by
  obtain ⟨hi, hgt, _, ⟨p, hp, hg⟩, _, _⟩ := observe_some hobs
  have h1 : uncol g' < uncol g := hg ▸ uncol_set_singleton p hi hgt
  have h2 : uncol g'' ≤ uncol g' :=
    uncol_le_of_pw (propagate_length hpro)
      (fun k => ((propagate_pw hpro) k).length_le)
  omega

theorem loopGo_length {ct : Nat → Nat → Dir → Bool} {w : Nat}
    {rnd : Nat → Nat × Nat} :
    ∀ {fuel round : Nat} {g g' : Grid},
      loopGo ct w rnd fuel round g = .ok g' → g'.length = g.length := by
  intro fuel
  induction fuel with
  | zero => intro round g g' h; simp [loopGo] at h
  | succ fuel ih =>
      intro round g g' h
      rw [loopGo] at h
      split at h
      · cases h; rfl
      next i g1 hobs =>
        split at h
        · simp at h
        next g2 hpro =>
          exact (ih h).trans ((propagate_length hpro).trans (observe_length hobs))

theorem loopGo_pw {ct : Nat → Nat → Dir → Bool} {w : Nat}
    {rnd : Nat → Nat × Nat} :
    ∀ {fuel round : Nat} {g g' : Grid},
      loopGo ct w rnd fuel round g = .ok g' →
      ∀ k, List.Sublist (cellAt g' k) (cellAt g k) := by
  intro fuel
  induction fuel with
  | zero => intro round g g' h; simp [loopGo] at h
  | succ fuel ih =>
      intro round g g' h k
      rw [loopGo] at h
      split at h
      · cases h; rfl
      next i g1 hobs =>
        split at h
        · simp at h
        next g2 hpro =>
          exact ((ih h k).trans (propagate_pw hpro k)).trans (observe_pw hobs k)

/-- Claim C6, loop part: with fuel `uncol g + 1` the observe/propagate loop
never exhausts its fuel (each round strictly decreases `uncol`). -/
theorem loopGo_error {ct : Nat → Nat → Dir → Bool} {w : Nat}
    {rnd : Nat → Nat × Nat} :
    ∀ {fuel round : Nat} {g : Grid} {e : Err},
      loopGo ct w rnd fuel round g = .error e →
      uncol g + 1 ≤ fuel →
      e = .fault ∨ e = .contradiction := by
  intro fuel
  induction fuel with
  | zero => intro round g e h hf; omega
  | succ fuel ih =>
      intro round g e h hf
      rw [loopGo] at h
      split at h
      · cases h
      next i g1 hobs =>
        split at h
        next e' hpro =>
          cases h
          rcases propagateGo_error hpro (by simp) with h' | h'
          · exact Or.inl h'
          · exact Or.inr h'
        next g2 hpro =>
          refine ih h ?_
          have := round_uncol_lt hobs hpro
          omega

theorem uncol_le_length (g : Grid) : uncol g ≤ g.length :=
  List.countP_le_length _

/-- `solveGrid` never runs out of fuel: the solver loop of `generate`
terminates for every input. -/
theorem solveGrid_error {ct : Nat → Nat → Dir → Bool}
    {initDom : List Nat} {w h : Nat} {rnd : Nat → Nat × Nat} {e : Err}
    (he : solveGrid ct initDom w h rnd = .error e) :
    e = .fault ∨ e = .contradiction := by
  refine loopGo_error he ?_
  have := uncol_le_length (List.replicate (w * h) initDom)
  simp only [List.length_replicate] at this
  omega

/-! ### Rendering and `generate` error kinds -/

theorem putPixel_error {img : ImageM} {x y : Nat} {c : Color} {e : Err}
    (h : putPixel img x y c = .error e) : e = .fault := by
  unfold putPixel at h
  split at h <;> simp_all

theorem renderRow_error {pix0 : Nat → Color} {w : Nat} {g : Grid} {i : Nat} :
    ∀ {js : List Nat} {img : ImageM} {e : Err},
      renderRow pix0 w g i img js = .error e → e = .fault
  | [], img, e, h => by simp [renderRow] at h
  | j :: js, img, e, h => by
      rw [renderRow] at h
      split at h
      next e' he => exact (Except.error.injEq _ _ ▸ h) ▸ putPixel_error he
      · exact renderRow_error h

theorem renderGo_error {pix0 : Nat → Color} {w : Nat} {g : Grid} :
    ∀ {is : List Nat} {img : ImageM} {e : Err},
      renderGo pix0 w g img is = .error e → e = .fault
  | [], img, e, h => by simp [renderGo] at h
  | i :: is, img, e, h => by
      rw [renderGo] at h
      split at h
      next e' he => exact (Except.error.injEq _ _ ▸ h) ▸ renderRow_error he
      · exact renderGo_error h

theorem generate_error {ct : Nat → Nat → Dir → Bool} {pix0 : Nat → Color}
    {initDom : List Nat} {w h : Nat} {rnd : Nat → Nat × Nat} {e : Err}
    (he : generate ct pix0 initDom w h rnd = .error e) :
    e = .fault ∨ e = .contradiction := by
  unfold generate at he
  split at he
  next e' hs => exact (Except.error.injEq _ _ ▸ he) ▸ solveGrid_error hs
  next g hs =>
    split at he
    · exact Or.inl (renderGo_error he)
    · exact Or.inl (by cases he; rfl)

theorem cellAt_replicate {n k : Nat} {l : List Nat} (h : k < n) :
    cellAt (List.replicate n l) k = l := by
  rw [cellAt, List.getD_eq_getElem?_getD,
    List.getElem?_eq_getElem (by simpa using h), List.getElem_replicate]
  rfl

/-! ### Claim theorems -/

/-- C2 (confirmed): each time a cell is popped in `propagate`, the processing
of an in-bounds neighbour `np` of the popped cell `sp` (with direction
`Dir.fromNeighbors sp np` from `sp` to `np`) replaces the neighbour's domain,
as a set, by exactly the support set
`{ q ∈ D_n | ∃ p ∈ D_i, C(p, q, d) = 1 }`, where `D_i` and `D_n` are the
domains of source and neighbour at the moment the edge is processed.
(`processCell` folds `processNeighbor` over exactly the in-bounds neighbour
list produced by `get_neighbors`.) -/
theorem C2_support_pruning (ct : Nat → Nat → Dir → Bool) (w : Nat)
    (g g' : Grid) (s s' : List Nat) (sp np : Nat × Nat)
    (h : processNeighbor ct w (g, s) sp np = .ok (g', s')) :
    ∀ q, q ∈ cellAt g' (posIdx w np) ↔
      q ∈ cellAt g (posIdx w np) ∧
      ∃ p ∈ cellAt g (posIdx w sp), ct p q (Dir.fromNeighbors sp np) = true := by
  obtain ⟨Dn, Di, hDn, hDi, _, hg, _⟩ := processNeighbor_ok h
  subst hg
  intro q
  rw [cellAt_set_self (get?_lt_length hDn), cellAt_of_get? hDn,
    cellAt_of_get? hDi, mem_support]

/-- Witness for C2 at a concrete edge: a 1×2 grid of domains `[0, 1]` with
everything allowed; the neighbour keeps pattern `0`. -/
theorem C2_support_pruning_witness :
    (0 : Nat) ∈ cellAt [[0, 1], [0, 1]] (posIdx 2 (0, 1)) :=
  (C2_support_pruning ctAll 2 [[0, 1], [0, 1]] [[0, 1], [0, 1]] [] []
    (0, 0) (0, 1) rfl 0).mpr
    ⟨by decide, 0, by decide, rfl⟩

/-- C3 (confirmed): `observe` returns `none` iff no cell has domain size
greater than 1.  Otherwise it returns `some (i, g')` where cell `i` attains
the minimum domain size `m` among cells of size `> 1`, `g'` overwrites cell
`i` with a singleton drawn from its own domain, every cell of size `m` is
selected for a suitable value of the first randomness draw (ties are broken
by the draw, not by position), and for the fixed first draw every pattern of
the chosen cell is selected for a suitable value of the second, independent
draw. -/
theorem C3_observe_spec (r1 r2 : Nat) (g : Grid) :
    (observe r1 r2 g = none ↔ ∀ c ∈ g, c.length ≤ 1) ∧
    (∀ i g', observe r1 r2 g = some (i, g') →
      i < g.length ∧ 1 < (cellAt g i).length ∧
      (∀ c ∈ g, 1 < c.length → (cellAt g i).length ≤ c.length) ∧
      (∃ p ∈ cellAt g i, g' = g.set i [p]) ∧
      (∀ j, j < g.length → (cellAt g j).length = (cellAt g i).length →
        ∃ r1' g'', observe r1' r2 g = some (j, g'')) ∧
      (∀ q ∈ cellAt g i, ∃ r2', observe r1 r2' g = some (i, g.set i [q]))) :=
  ⟨observe_none_iff, fun _ _ h => observe_some h⟩

/-- Witness for C3 at a concrete grid: `observe 0 0 [[5, 7], [3]]` collapses
cell 0 (the unique cell of minimal entropy 2) to `[5]`. -/
theorem C3_observe_spec_witness :
    observe 0 0 [[5, 7], [3]] = some (0, [[5], [3]]) ∧
    1 < (cellAt [[5, 7], [3]] 0).length ∧
    ¬(observe 0 0 [[5], [3]] = none ↔ False) := by
  refine ⟨by decide, ((C3_observe_spec 0 0 [[5, 7], [3]]).2 0 [[5], [3]]
    (by decide)).2.1, ?_⟩
  rw [(C3_observe_spec 0 0 [[5], [3]]).1]
  decide

/-- C6 (confirmed): the solver always terminates.  First conjunct: the
work-stack loop of `propagate`, run with fuel equal to its measure
`totalSize + stack length`, never exhausts the fuel — a cell is pushed only
when a neighbour's domain strictly shrinks, so the measure strictly
decreases at every pop; `propagate` itself runs `propagateGo` with fuel
`totalSize g + 1`, the measure of its initial one-element stack.  Second
conjunct: `generate` (whose observe loop runs with fuel `w * h + 1`, one
round per cell collapse) never exhausts fuel either, for any input. -/
theorem C6_termination (ct : Nat → Nat → Dir → Bool) (w : Nat) :
    (∀ g s, propagateGo ct w (totalSize g + s.length) g s ≠ .error .fuelOut) ∧
    (∀ pix0 initDom h rnd,
      generate ct pix0 initDom w h rnd ≠ .error .fuelOut) := by
  constructor
  · intro g s hcon
    rcases propagateGo_error hcon (Nat.le_refl _) with h' | h' <;> cases h'
  · intro pix0 initDom h rnd hcon
    rcases generate_error hcon with h' | h' <;> cases h'

/-- C9 (confirmed): every individual domain mutation — an `observe`
collapse, or a `processNeighbor` support write inside `propagate` — replaces
a cell's domain by a subset of its previous value, and domain sizes never
increase; consequently the same holds for whole `propagate` calls and for
the entire solver run against the initial full domains. -/
theorem C9_monotone_domains (ct : Nat → Nat → Dir → Bool) (w : Nat) :
    (∀ r1 r2 g i g', observe r1 r2 g = some (i, g') → ∀ k,
      cellAt g' k ⊆ cellAt g k ∧
      (cellAt g' k).length ≤ (cellAt g k).length) ∧
    (∀ g s sp np g' s', processNeighbor ct w (g, s) sp np = .ok (g', s') →
      ∀ k, cellAt g' k ⊆ cellAt g k ∧
      (cellAt g' k).length ≤ (cellAt g k).length) ∧
    (∀ g i g', propagate ct w g i = .ok g' → ∀ k,
      cellAt g' k ⊆ cellAt g k ∧
      (cellAt g' k).length ≤ (cellAt g k).length) ∧
    (∀ initDom h rnd gF, solveGrid ct initDom w h rnd = .ok gF → ∀ k,
      cellAt gF k ⊆ cellAt (List.replicate (w * h) initDom) k ∧
      (cellAt gF k).length ≤
        (cellAt (List.replicate (w * h) initDom) k).length) := by
  refine ⟨fun r1 r2 g i g' h k => ?_, fun g s sp np g' s' h k => ?_,
    fun g i g' h k => ?_, fun initDom h rnd gF hs k => ?_⟩
  · exact ⟨(observe_pw h k).subset, (observe_pw h k).length_le⟩
  · exact ⟨(processNeighbor_pw h k).subset, (processNeighbor_pw h k).length_le⟩
  · exact ⟨(propagate_pw h k).subset, (propagate_pw h k).length_le⟩
  · exact ⟨(loopGo_pw hs k).subset, (loopGo_pw hs k).length_le⟩

/-- Witness for C9 at a concrete `observe` collapse. -/
theorem C9_monotone_domains_witness :
    cellAt [[5], [3]] 0 ⊆ cellAt [[5, 7], [3]] 0 ∧
    (cellAt [[5], [3]] 0).length ≤ (cellAt [[5, 7], [3]] 0).length :=
  (C9_monotone_domains ctAll 2).1 0 0 [[5, 7], [3]] 0 [[5], [3]]
    (by decide) 0

/-- C10 (confirmed): the solver only ever stores duplicate-free domain
vectors.  The initial grid holds the (deduplicated) pattern list in every
cell; every `propagate` write is a deduplicated support set, hence
duplicate-free unconditionally; `observe` writes one-element vectors and so
preserves duplicate-freeness; and for a duplicate-free initial pattern list
every cell of any successful solver result is duplicate-free, so its vector
length equals the number of distinct still-possible patterns (its
entropy). -/
theorem C10_nodup_invariant (ct : Nat → Nat → Dir → Bool) (w : Nat) :
    (∀ Di Dn d, (support ct Di Dn d).Nodup) ∧
    (∀ initDom h' k, k < w * h' →
      cellAt (List.replicate (w * h') initDom) k = initDom) ∧
    (∀ r1 r2 g i g', observe r1 r2 g = some (i, g') →
      (∀ k, (cellAt g k).Nodup) → ∀ k, (cellAt g' k).Nodup) ∧
    (∀ initDom h' rnd gF, initDom.Nodup →
      solveGrid ct initDom w h' rnd = .ok gF →
      ∀ k, (cellAt gF k).Nodup ∧
        (cellAt gF k).length = (cellAt gF k).toFinset.card) := by
  refine ⟨fun Di Dn d => support_nodup ct Di Dn d,
    fun initDom h' k hk => cellAt_replicate hk,
    fun r1 r2 g i g' h hnd k => ?_, fun initDom h' rnd gF hnd hs k => ?_⟩
  · obtain ⟨hi, _, _, ⟨p, hp, hg⟩, _, _⟩ := observe_some h
    subst hg
    by_cases hk : k = i
    · subst hk; rw [cellAt_set_self hi]; exact List.nodup_singleton p
    · rw [cellAt_set_ne hk]; exact hnd k
  · have hsub := loopGo_pw hs k
    have hnd' : (cellAt gF k).Nodup := by
      refine hsub.nodup ?_
      by_cases hk : k < w * h'
      · rw [cellAt_replicate hk]; exact hnd
      · rw [cellAt, List.getD_eq_getElem?_getD, List.getElem?_eq_none
          (by simpa using Nat.le_of_not_lt hk)]
        exact List.nodup_nil
    exact ⟨hnd', (List.toFinset_card_of_nodup hnd').symm⟩

/-- Witness for C10: a concrete observe step preserving duplicate-freeness. -/
theorem solveGrid_empty {ct : Nat → Nat → Dir → Bool} {initDom : List Nat}
    {w h : Nat} {rnd : Nat → Nat × Nat} (hwh : w * h = 0) :
    solveGrid ct initDom w h rnd = .ok [] := by
  unfold solveGrid
  rw [hwh]
  rfl

theorem renderGo_width_zero (pix0 : Nat → Color) (g : Grid) :
    ∀ (is : List Nat) (img : ImageM), renderGo pix0 0 g img is = .ok img
  | [], _ => rfl
  | i :: is, img => by
      rw [renderGo]
      simp only [List.range_zero, renderRow]
      exact renderGo_width_zero pix0 g is img

/-- C8 counterexample: the code performs no up-front validation.  A call
with output width `0` (which the claim says must be rejected with
`InvalidOutputSize` before solving, producing no output image) instead
succeeds and returns an (empty) output raster. -/
theorem C8_counterexample :
    generate ctAll pixZero [0] 0 3 rndZero = .ok ⟨0, 3, []⟩ := rfl

/-- C8 (corrected), amended claim: `generate` rejects nothing up front — the
code defines no `InvalidKernelSize`, `InvalidOutputSize` or
`EmptyPatternSet` errors at all.  In particular a call with `W = 0` or
`H = 0` is not an error: it returns an empty `W × H` raster.  (The only
abort conditions of `generate` are the propagation contradiction and Rust
panics, cf. `generate_error`.) -/
theorem C8_no_validation (ct : Nat → Nat → Dir → Bool) (pix0 : Nat → Color)
    (initDom : List Nat) (rnd : Nat → Nat × Nat) :
    (∀ h, generate ct pix0 initDom 0 h rnd = .ok ⟨0, h, []⟩) ∧
    (∀ w, generate ct pix0 initDom w 0 rnd = .ok ⟨w, 0, []⟩) := by
  constructor
  · intro h
    unfold generate
    rw [solveGrid_empty (Nat.zero_mul h)]
    simp only [List.all_nil, if_true]
    unfold render
    rw [renderGo_width_zero]
    simp [newImage, Nat.zero_mul]
  · intro w
    unfold generate
    rw [solveGrid_empty (Nat.mul_zero w)]
    simp only [List.all_nil, if_true]
    unfold render
    simp [newImage, Nat.mul_zero, renderGo]

theorem C10_nodup_invariant_witness :
    (cellAt [[5], [3]] 1).Nodup :=
  (C10_nodup_invariant ctAll 2).2.2.1 0 0 [[5, 7], [3]] 0 [[5], [3]]
    (by decide)
    (fun k => by
      match k with
      | 0 => decide
      | 1 => decide
      | n + 2 => exact List.nodup_nil)
    1

/-! ### Claim C4: the contradiction error, if and only if an empty support
set is computed -/

theorem processNeighbor_contra_iff {ct : Nat → Nat → Dir → Bool} {w : Nat}
    {gs : Grid × List Nat} {sp np : Nat × Nat} :
    processNeighbor ct w gs sp np = .error .contradiction ↔
    ∃ Dn Di, readCell gs.1 (posIdx w np) = .ok Dn ∧
      readCell gs.1 (posIdx w sp) = .ok Di ∧
      support ct Di Dn (Dir.fromNeighbors sp np) = [] := by
  constructor
  · intro h
    unfold processNeighbor at h
    split at h
    next e he => cases (Except.error.injEq _ _ ▸ h) ▸ readCell_error he
    next Dn hDn =>
      split at h
      next e he => cases (Except.error.injEq _ _ ▸ h) ▸ readCell_error he
      next Di hDi =>
        split at h
        next hemp => exact ⟨Dn, Di, hDn, hDi, by simpa [List.isEmpty_iff] using hemp⟩
        · simp at h
  · rintro ⟨Dn, Di, hDn, hDi, hsup⟩
    unfold processNeighbor
    rw [hDn, hDi]
    simp [hsup]

theorem processNeighbors_contra_iff {ct : Nat → Nat → Dir → Bool} {w : Nat} :
    ∀ {l : List (Nat × Nat)} {gs : Grid × List Nat} {sp : Nat × Nat},
      processNeighbors ct w gs sp l = .error .contradiction ↔
      NeighContra ct w gs sp l
  | [], gs, sp => by
      rw [processNeighbors]
      constructor
      · intro h; cases h
      · intro h; cases h
  | np :: rest, gs, sp => by
      rw [processNeighbors]
      split
      next e he =>
        constructor
        · intro hh
          rw [Except.error.injEq] at hh
          subst hh
          obtain ⟨Dn, Di, h1, h2, h3⟩ := processNeighbor_contra_iff.mp he
          exact NeighContra.here h1 h2 h3
        · intro hnc
          cases hnc with
          | here h1 h2 h3 =>
              have hc : processNeighbor ct w gs sp np = .error .contradiction :=
                processNeighbor_contra_iff.mpr ⟨_, _, h1, h2, h3⟩
              rw [hc] at he
              rw [← he]
          | step hok _ => rw [hok] at he; cases he
      next gs' hok =>
        rw [processNeighbors_contra_iff (l := rest)]
        constructor
        · exact fun hh => NeighContra.step hok hh
        · intro hnc
          cases hnc with
          | here h1 h2 h3 =>
              have hc : processNeighbor ct w gs sp np = .error .contradiction :=
                processNeighbor_contra_iff.mpr ⟨_, _, h1, h2, h3⟩
              rw [hok] at hc; cases hc
          | step hok' hrest =>
              rw [hok] at hok'
              rw [Except.ok.injEq] at hok'
              subst hok'
              exact hrest

theorem propagateGo_contra_iff {ct : Nat → Nat → Dir → Bool} {w : Nat} :
    ∀ {fuel : Nat} {g : Grid} {s : List Nat},
      totalSize g + s.length ≤ fuel →
      (propagateGo ct w fuel g s = .error .contradiction ↔
        PropContra ct w g s) := by
  intro fuel
  induction fuel with
  | zero =>
      intro g s hm
      cases s with
      | nil =>
          simp only [propagateGo]
          constructor
          · intro h; cases h
          · intro h; cases h
      | cons i rest => simp at hm
  | succ fuel ih =>
      intro g s hm
      cases s with
      | nil =>
          simp only [propagateGo]
          constructor
          · intro h; cases h
          · intro h; cases h
      | cons i rest =>
          rw [propagateGo]
          split
          next e he =>
            constructor
            · intro hh
              rw [Except.error.injEq] at hh
              subst hh
              exact PropContra.here (processNeighbors_contra_iff.mp he)
            · intro hpc
              cases hpc with
              | here hnc =>
                  have hc : processCell ct w g rest i = .error .contradiction :=
                    processNeighbors_contra_iff.mpr hnc
                  rw [hc] at he
                  rw [Except.error.injEq] at he
                  rw [← he]
              | step hok _ => rw [hok] at he; cases he
          next gs hok =>
            obtain ⟨g1, s1⟩ := gs
            have hm' : totalSize g1 + s1.length ≤ fuel := by
              have := processCell_measure hok
              simp only [List.length_cons] at hm
              omega
            rw [ih hm']
            constructor
            · exact fun hh => PropContra.step hok hh
            · intro hpc
              cases hpc with
              | here hnc =>
                  have hc : processCell ct w g rest i = .error .contradiction :=
                    processNeighbors_contra_iff.mpr hnc
                  rw [hok] at hc; cases hc
              | step hok' hrest =>
                  rw [hok] at hok'
                  rw [Except.ok.injEq] at hok'
                  subst hok'
                  exact hrest

theorem propagate_contra_iff {ct : Nat → Nat → Dir → Bool} {w : Nat}
    {g : Grid} {i : Nat} :
    propagate ct w g i = .error .contradiction ↔ PropContra ct w g [i] :=
  propagateGo_contra_iff (by simp)

theorem loopGo_contra_iff {ct : Nat → Nat → Dir → Bool} {w : Nat}
    {rnd : Nat → Nat × Nat} :
    ∀ {fuel round : Nat} {g : Grid},
      uncol g + 1 ≤ fuel →
      (loopGo ct w rnd fuel round g = .error .contradiction ↔
        LoopContra ct w rnd round g) := by
  intro fuel
  induction fuel with
  | zero => intro round g hm; omega
  | succ fuel ih =>
      intro round g hm
      rw [loopGo]
      split
      next hobs =>
        constructor
        · intro h; cases h
        · intro hlc
          cases hlc with
          | here hobs' _ => rw [hobs] at hobs'; cases hobs'
          | step hobs' _ _ => rw [hobs] at hobs'; cases hobs'
      next i g1 hobs =>
        split
        next e hpro =>
          constructor
          · intro hh
            rw [Except.error.injEq] at hh
            subst hh
            exact LoopContra.here hobs (propagate_contra_iff.mp hpro)
          · intro hlc
            cases hlc with
            | here hobs' hpc =>
                rw [hobs] at hobs'
                rw [Option.some.injEq, Prod.mk.injEq] at hobs'
                obtain ⟨hi, hg⟩ := hobs'
                subst hi; subst hg
                have hc := propagate_contra_iff.mpr hpc
                rw [hc] at hpro
                rw [← hpro]
            | step hobs' hpro' _ =>
                rw [hobs] at hobs'
                rw [Option.some.injEq, Prod.mk.injEq] at hobs'
                obtain ⟨hi, hg⟩ := hobs'
                subst hi; subst hg
                rw [hpro'] at hpro; cases hpro
        next g2 hpro =>
          have hm' : uncol g2 + 1 ≤ fuel := by
            have := round_uncol_lt hobs hpro
            omega
          rw [ih hm']
          constructor
          · exact fun hh => LoopContra.step hobs hpro hh
          · intro hlc
            cases hlc with
            | here hobs' hpc =>
                rw [hobs] at hobs'
                rw [Option.some.injEq, Prod.mk.injEq] at hobs'
                obtain ⟨hi, hg⟩ := hobs'
                subst hi; subst hg
                have hc := propagate_contra_iff.mpr hpc
                rw [hc] at hpro; cases hpro
            | step hobs' hpro' hrest =>
                rw [hobs] at hobs'
                rw [Option.some.injEq, Prod.mk.injEq] at hobs'
                obtain ⟨hi, hg⟩ := hobs'
                subst hi; subst hg
                rw [hpro] at hpro'
                rw [Except.ok.injEq] at hpro'
                subst hpro'
                exact hrest

/-- C4 (confirmed): `generate` aborts with the dedicated `Contradiction`
error — distinct from the `Err.fault` used for every other panic, and by the
`Except` type carrying no partial raster — if and only if its run reaches a
round whose propagation computes an empty support set for some processed
neighbour (`LoopContra`, whose leaves `NeighContra.here` record exactly
`support ct Di Dn d = []` for the processed edge). -/
theorem C4_contradiction_iff (ct : Nat → Nat → Dir → Bool)
    (pix0 : Nat → Color) (initDom : List Nat) (w h : Nat)
    (rnd : Nat → Nat × Nat) :
    generate ct pix0 initDom w h rnd = .error .contradiction ↔
    LoopContra ct w rnd 0 (List.replicate (w * h) initDom) := by
  have hsolve : solveGrid ct initDom w h rnd = .error .contradiction ↔
      LoopContra ct w rnd 0 (List.replicate (w * h) initDom) := by
    refine loopGo_contra_iff ?_
    have := uncol_le_length (List.replicate (w * h) initDom)
    simp only [List.length_replicate] at this
    omega
  rw [← hsolve]
  unfold generate
  split
  next e hs =>
    constructor
    · intro hh
      rw [Except.error.injEq] at hh
      subst hh
      exact hs
    · intro hh
      rw [hs] at hh
      rw [Except.error.injEq] at hh
      rw [hh]
  next g hs =>
    constructor
    · intro hh
      split at hh
      · exact absurd (renderGo_error hh) (by simp)
      · cases hh
    · intro hh
      rw [hs] at hh
      cases hh

/-! ### Claim C5: reflexive adjacency -/

theorem ctRow_bit (p1 p2 : Pattern) (d : Dir) :
    (ctRow p1 p2 >>> d.bit) &&& 1 = (p1.overlaps p2 d).toNat := by
  unfold ctRow
  simp only [Dir.all, List.foldl]
  cases h0 : p1.overlaps p2 .up <;> cases h1 : p1.overlaps p2 .right <;>
    cases h2 : p1.overlaps p2 .down <;> cases h3 : p1.overlaps p2 .left <;>
    cases d <;> simp only [h0, h1, h2, h3] <;> rfl

theorem ctLookup_eq {t : List ((Nat × Nat) × Nat)} {k : Nat × Nat} {v : Nat}
    (hall : ∀ e ∈ t, e.1 = k → e.2 = v) (hex : ∃ e ∈ t, e.1 = k) :
    ctLookup t k = v := by
  unfold ctLookup
  cases hf : t.reverse.find? fun e => e.1 = k with
  | none =>
      rw [List.find?_eq_none] at hf
      obtain ⟨e, he, hek⟩ := hex
      exact absurd (by simpa using hek)
        (by simpa using hf e (List.mem_reverse.mpr he))
  | some e =>
      have hmem := List.mem_of_find?_eq_some hf
      have hkey := List.find?_some hf
      simp only [Option.map_some', Option.getD_some]
      exact hall e (List.mem_reverse.mp hmem) (by simpa using hkey)

theorem ctLookup_buildConstraints {pats : List Pattern} {a b : Pattern}
    (ha : a ∈ pats) (hb : b ∈ pats)
    (hinj : (pats.map Pattern.id).Nodup) :
    ctLookup (buildConstraints pats) (a.id, b.id) = ctRow a b := by
  have hinj' := List.inj_on_of_nodup_map hinj
  refine ctLookup_eq ?_ ?_
  · intro e he hek
    simp only [buildConstraints, List.mem_flatMap, List.mem_map] at he
    obtain ⟨p1, hp1, p2, hp2, rfl⟩ := he
    simp only [Prod.mk.injEq] at hek
    have h1 : p1 = a := hinj' hp1 ha hek.1
    have h2 : p2 = b := hinj' hp2 hb hek.2
    rw [h1, h2]
  · refine ⟨((a.id, b.id), ctRow a b), ?_, rfl⟩
    simp only [buildConstraints, List.mem_flatMap, List.mem_map]
    exact ⟨a, ha, b, hb, rfl⟩

/-- C5 counterexample: reflexive adjacency fails on the code.  For the 2×2
pattern `[0,1; 1,2]` extracted from the gradient exemplar used by the
repository's own tests (whose expected constraints byte for `(0, 0)` is
`0b0000`), the table built by `build_constraints` from the singleton pattern
set gives `C(a, a, Up) = 0`, not `1`. -/
theorem C5_counterexample :
    patGrad ∈ [patGrad] ∧
    cval [patGrad] patGrad.id patGrad.id Dir.up ≠ 1 := by decide

/-- C5 (corrected), amended claim: for a pattern set with pairwise distinct
ids, `C(a, a, d) = 1` holds exactly when `a`'s strip of pixels facing `d`
equals its strip facing the opposite direction — true, for instance, for
every constant-color pattern, but not for every pattern. -/
theorem C5_reflexive_amended (pats : List Pattern) (a : Pattern) (d : Dir)
    (ha : a ∈ pats) (hinj : (pats.map Pattern.id).Nodup) :
    cval pats a.id a.id d = 1 ↔ a.getSide d = a.getSide d.opposite := by
  unfold cval
  rw [ctLookup_buildConstraints ha ha hinj, ctRow_bit]
  unfold Pattern.overlaps
  cases hb : a.getSide d == a.getSide d.opposite <;>
    simp_all [beq_iff_eq, Bool.toNat]

/-- Witness for the amended C5 at a constant pattern: its opposite strips
agree, so the diagonal constraint bit is set. -/
theorem C5_reflexive_amended_witness :
    cval [patConst] patConst.id patConst.id Dir.up = 1 :=
  (C5_reflexive_amended [patConst] patConst Dir.up (by decide)
    (by decide)).mpr (by decide)

/-! ### Claim C7: output shape and rendering -/

theorem getD_set_self {α : Type _} {l : List α} {n : Nat} {a d : α}
    (h : n < l.length) : (l.set n a).getD n d = a := by
  rw [List.getD_eq_getElem?_getD, List.getElem?_set_self', List.getElem?_eq_getElem h]
  rfl

theorem getD_set_ne {α : Type _} {l : List α} {n k : Nat} {a d : α}
    (h : k ≠ n) : (l.set n a).getD k d = l.getD k d := by
  rw [List.getD_eq_getElem?_getD, List.getElem?_set_ne (Ne.symm h),
    List.getD_eq_getElem?_getD]

theorem putPixel_ok {img img' : ImageM} {x y : Nat} {c : Color}
    (h : putPixel img x y c = .ok img') :
    x < img.width ∧ y < img.height ∧ img'.width = img.width ∧
    img'.height = img.height ∧
    img'.data = img.data.set (y * img.width + x) c := by
  unfold putPixel at h
  split at h
  next hb =>
    rw [Except.ok.injEq] at h
    exact ⟨hb.1, hb.2, by rw [← h], by rw [← h], by rw [← h]⟩
  · simp at h

theorem renderRow_ok_char {pix0 : Nat → Color} {w h : Nat} {g : Grid}
    {i : Nat} :
    ∀ {js : List Nat} {img img' : ImageM},
      img.width = w → img.height = h → img.data.length = w * h →
      renderRow pix0 w g i img js = .ok img' → js.Nodup →
      img'.width = w ∧ img'.height = h ∧ img'.data.length = w * h ∧
      (∀ j ∈ js, i < w ∧ j < h ∧
        img'.data.getD (j * w + i) (0, 0, 0) =
          pix0 ((cellAt g (i * w + j)).headD 0)) ∧
      (∀ p, (∀ j ∈ js, p ≠ j * w + i) →
        img'.data.getD p (0, 0, 0) = img.data.getD p (0, 0, 0))
  | [], img, img', hw, hh, hlen, hr, hnd => by
      rw [renderRow, Except.ok.injEq] at hr
      subst hr
      exact ⟨hw, hh, hlen, by simp, fun p _ => rfl⟩
  | j :: rest, img, img', hw, hh, hlen, hr, hnd => by
      rw [renderRow] at hr
      split at hr
      · simp at hr
      next img1 hpp =>
        obtain ⟨hx, hy, h1w, h1h, h1data⟩ := putPixel_ok hpp
        rw [hw] at hx h1data
        rw [hh] at hy
        have h1len : img1.data.length = w * h := by
          rw [h1data, List.length_set, hlen]
        obtain ⟨hW, hH, hL, hmem, hunch⟩ :=
          renderRow_ok_char (h1w.trans hw) (h1h.trans hh) h1len hr
            (List.nodup_cons.mp hnd).2
        have hjrest := (List.nodup_cons.mp hnd).1
        have hwpos : 0 < w := Nat.lt_of_le_of_lt (Nat.zero_le i) hx
        have hbound : j * w + i < w * h := by
          have h1 : (j + 1) * w ≤ h * w := Nat.mul_le_mul_right w hy
          calc j * w + i < j * w + w := by omega
            _ = (j + 1) * w := by ring
            _ ≤ h * w := h1
            _ = w * h := Nat.mul_comm h w
        refine ⟨hW, hH, hL, ?_, ?_⟩
        · intro j' hj'
          rcases List.mem_cons.mp hj' with rfl | hj'
          · refine ⟨hx, hy, ?_⟩
            have hinj : ∀ j'' ∈ rest, (j' * w + i) ≠ (j'' * w + i) := by
              intro j'' hj'' heq
              have : j' = j'' :=
                Nat.eq_of_mul_eq_mul_right hwpos (by omega)
              exact hjrest (this ▸ hj'')
            rw [hunch _ hinj, h1data, getD_set_self (by rw [hlen]; exact hbound)]
          · exact hmem j' hj'
        · intro p hp
          have hrest : ∀ j'' ∈ rest, p ≠ j'' * w + i :=
            fun j'' hj'' => hp j'' (List.mem_cons_of_mem _ hj'')
          rw [hunch _ hrest, h1data,
            getD_set_ne (hp j (List.mem_cons_self _ _))]

theorem renderGo_ok_char {pix0 : Nat → Color} {w h : Nat} {g : Grid} :
    ∀ {is : List Nat} {img img' : ImageM},
      img.width = w → img.height = h → img.data.length = w * h →
      renderGo pix0 w g img is = .ok img' → is.Nodup →
      img'.width = w ∧ img'.height = h ∧ img'.data.length = w * h ∧
      (∀ i ∈ is, 0 < w → i < w) ∧
      (∀ i ∈ is, ∀ j, j < w → j < h) ∧
      (∀ i ∈ is, ∀ j, j < w →
        img'.data.getD (j * w + i) (0, 0, 0) =
          pix0 ((cellAt g (i * w + j)).headD 0)) ∧
      (∀ p, (∀ i ∈ is, ∀ j, j < w → p ≠ j * w + i) →
        img'.data.getD p (0, 0, 0) = img.data.getD p (0, 0, 0))
  | [], img, img', hw, hh, hlen, hr, hnd => by
      rw [renderGo, Except.ok.injEq] at hr
      subst hr
      exact ⟨hw, hh, hlen, by simp, by simp, by simp, fun p _ => rfl⟩
  | i :: rest, img, img', hw, hh, hlen, hr, hnd => by
      rw [renderGo] at hr
      split at hr
      · simp at hr
      next img1 hrow =>
        obtain ⟨h1W, h1H, h1L, hrmem, hrunch⟩ :=
          renderRow_ok_char hw hh hlen hrow (List.nodup_range w)
        obtain ⟨hW, hH, hL, hbnd, hjh, hmem, hunch⟩ :=
          renderGo_ok_char h1W h1H h1L hr (List.nodup_cons.mp hnd).2
        have hirest := (List.nodup_cons.mp hnd).1
        have hjw : ∀ j, j < w → j ∈ List.range w := fun j hj =>
          List.mem_range.mpr hj
        have hiw : 0 < w → i < w := fun hw0 =>
          (hrmem 0 (hjw 0 hw0)).1
        refine ⟨hW, hH, hL, ?_, ?_, ?_, ?_⟩
        · intro i' hi' hw0
          rcases List.mem_cons.mp hi' with rfl | hi'
          · exact hiw hw0
          · exact hbnd i' hi' hw0
        · intro i' hi' j hj
          rcases List.mem_cons.mp hi' with rfl | hi'
          · exact (hrmem j (hjw j hj)).2.1
          · exact hjh i' hi' j hj
        · intro i' hi' j hj
          rcases List.mem_cons.mp hi' with rfl | hi'
          · -- the head row: later rows do not touch position j * w + i'
            have hw0 : 0 < w := Nat.lt_of_le_of_lt (Nat.zero_le j) hj
            have havoid : ∀ i'' ∈ rest, ∀ j'', j'' < w →
                (j * w + i') ≠ (j'' * w + i'') := by
              intro i'' hi'' j'' _ heq
              have hi'w : i' < w := hiw hw0
              have hi''w : i'' < w := hbnd i'' hi'' hw0
              have : i' = i'' := by
                have h1 : (j * w + i') % w = i' % w := by
                  rw [Nat.mul_comm j w, Nat.mul_add_mod]
                have h2 : (j'' * w + i'') % w = i'' % w := by
                  rw [Nat.mul_comm j'' w, Nat.mul_add_mod]
                rw [heq] at h1
                rw [h2] at h1
                rw [Nat.mod_eq_of_lt hi'w, Nat.mod_eq_of_lt hi''w] at h1
                exact h1.symm
              exact hirest (this ▸ hi'')
            rw [hunch _ havoid]
            exact (hrmem j (hjw j hj)).2.2
          · exact hmem i' hi' j hj
        · intro p hp
          have hrest : ∀ i'' ∈ rest, ∀ j, j < w → p ≠ j * w + i'' :=
            fun i'' hi'' j hj =>
              hp i'' (List.mem_cons_of_mem _ hi'') j hj
          have hhead : ∀ j ∈ List.range w, p ≠ j * w + i := fun j hj =>
            hp i (List.mem_cons_self _ _) j (List.mem_range.mp hj)
          rw [hunch _ hrest, hrunch _ hhead]

/-- C7 (confirmed): a successful `generate (W, H)` returns a raster of
dimensions `W × H`, and the pixel written for grid cell `(i, j)` (by
`put_pixel(i, j, …)`, i.e. the raster position with column coordinate `i`
and row coordinate `j`) is the first pixel (`pix0`) of the sole pattern
remaining in cell `(i, j)` (linear index `i * W + j`) of the final entropy
grid. -/
theorem C7_output_shape (ct : Nat → Nat → Dir → Bool) (pix0 : Nat → Color)
    (initDom : List Nat) (w h : Nat) (rnd : Nat → Nat × Nat) (img : ImageM)
    (hgen : generate ct pix0 initDom w h rnd = .ok img) :
    img.width = w ∧ img.height = h ∧
    ∀ gF, solveGrid ct initDom w h rnd = .ok gF →
      ∀ i j, i < h → j < w →
        pixelAt img i j = pix0 ((cellAt gF (i * w + j)).headD 0) := by
  unfold generate at hgen
  split at hgen
  · simp at hgen
  next gF0 hs =>
    split at hgen
    swap
    · simp at hgen
    unfold render at hgen
    obtain ⟨hW, hH, hL, hbnd, hjh, hmem, hunch⟩ :=
      renderGo_ok_char (w := w) (h := h) rfl rfl
        (by simp [newImage]) hgen (List.nodup_range h)
    refine ⟨hW, hH, ?_⟩
    intro gF hsg i j hi hj
    rw [hs] at hsg
    rw [Except.ok.injEq] at hsg
    subst hsg
    rw [pixelAt, hW]
    exact hmem i (List.mem_range.mpr hi) j hj

/-- Witness for C7: the all-allowed two-pattern 2×2 run succeeds and writes
the first pixel of the collapsed pattern at raster position `(0, 0)`. -/
theorem C7_output_shape_witness :
    generate ctAll pixZero [0, 1] 2 2 rndZero =
      .ok ⟨2, 2, [(0, 0, 0), (0, 0, 0), (0, 0, 0), (0, 0, 0)]⟩ ∧
    pixelAt ⟨2, 2, [(0, 0, 0), (0, 0, 0), (0, 0, 0), (0, 0, 0)]⟩ 0 0 =
      pixZero ((cellAt [[0], [0], [0], [0]] 0).headD 0) :=
  ⟨rfl,
    (C7_output_shape ctAll pixZero [0, 1] 2 2 rndZero
        ⟨2, 2, [(0, 0, 0), (0, 0, 0), (0, 0, 0), (0, 0, 0)]⟩ rfl).2.2
      [[0], [0], [0], [0]] rfl 0 0 (by decide) (by decide)⟩

/-! ### Claim C1: geometry of the square grid

`generate` only returns a raster when `W = H` (or when the grid is empty):
the rendering loop calls `put_pixel(i, j)` with `i` ranging over the height
and `j` over the width, which is in bounds for all pixels only on square
outputs.  On square grids the `idx_to_pos` convention (division by the
table height) agrees with the row-major indexing, and we can characterise
`get_neighbors`. -/

theorem heightT_square {s : Nat} (hs : 0 < s) : heightT s (s * s) = s :=
  Nat.mul_div_cancel s hs

theorem idxToPos_square {s : Nat} (hs : 0 < s) (i : Nat) :
    idxToPos s (s * s) i = (i / s, i % s) := by
  unfold idxToPos
  rw [heightT_square hs]

theorem posIdx_idxToPos {s i : Nat} (hs : 0 < s) :
    posIdx s (idxToPos s (s * s) i) = i := by
  rw [idxToPos_square hs]
  show i / s * s + i % s = i
  rw [Nat.mul_comm]
  exact Nat.div_add_mod i s

theorem idxToPos_bounds {s i : Nat} (hs : 0 < s) (hi : i < s * s) :
    i / s < s ∧ i % s < s :=
  ⟨(Nat.div_lt_iff_lt_mul hs).mpr hi, Nat.mod_lt _ hs⟩

theorem posIdx_lt {s x y : Nat} (hx : x < s) (hy : y < s) :
    posIdx s (x, y) < s * s := by
  show x * s + y < s * s
  calc x * s + y < x * s + s := by omega
    _ = (x + 1) * s := by ring
    _ ≤ s * s := Nat.mul_le_mul_right s hx

theorem posIdx_mod {s x y : Nat} (hy : y < s) : posIdx s (x, y) % s = y := by
  show (x * s + y) % s = y
  rw [Nat.mul_comm x s, Nat.mul_add_mod, Nat.mod_eq_of_lt hy]

theorem posIdx_inj {s x y x₂ y₂ : Nat} (hy : y < s) (hy₂ : y₂ < s)
    (h : posIdx s (x, y) = posIdx s (x₂, y₂)) : x = x₂ ∧ y = y₂ := by
  have hs : 0 < s := Nat.lt_of_le_of_lt (Nat.zero_le y) hy
  have h1 : y = y₂ := by
    have h2 := posIdx_mod (x := x) hy
    rw [h, posIdx_mod (x := x₂) hy₂] at h2
    exact h2.symm
  subst h1
  refine ⟨?_, rfl⟩
  have h3 : x * s = x₂ * s := by
    have h4 : x * s + y = x₂ * s + y := h
    omega
  exact Nat.eq_of_mul_eq_mul_right hs h3

/-- Every orthogonally adjacent in-bounds pair appears in the `get_neighbors`
enumeration of the source, and `from_neighbors` recovers its direction. -/
theorem AdjN_mem {s x y x' y' : Nat} {d : Dir} (h : AdjN s s x y x' y' d) :
    (x', y') ∈ getNeighborsPos s (s * s) (x, y) ∧
    Dir.fromNeighbors (x, y) (x', y') = d := by
  obtain ⟨hx, hy, hx', hy', heq⟩ := h
  have hs : 0 < s := Nat.lt_of_le_of_lt (Nat.zero_le x) hx
  cases d with
  | up =>
      rw [Dir.addPos, Prod.mk.injEq] at heq
      obtain ⟨h1, h2⟩ := heq
      constructor
      · refine List.mem_filterMap.mpr ⟨Dir.up, by simp [Dir.all], ?_⟩
        show (if 0 ≤ (x : Int) - 1 ∧ 0 ≤ (y : Int) ∧ (x : Int) - 1 < (s : Int)
            ∧ (y : Int) < ((heightT s (s * s) : Nat) : Int)
          then some (((x : Int) - 1).toNat, ((y : Int)).toNat) else none) =
          some (x', y')
        rw [heightT_square hs, if_pos (by omega)]
        simp only [Option.some.injEq, Prod.mk.injEq]
        constructor <;> omega
      · have hdx : (x' : Int) - (x : Int) = -1 := by omega
        have hdy : (y' : Int) - (y : Int) = 0 := by omega
        simp [Dir.fromNeighbors, hdx, hdy]
  | right =>
      rw [Dir.addPos, Prod.mk.injEq] at heq
      obtain ⟨h1, h2⟩ := heq
      constructor
      · refine List.mem_filterMap.mpr ⟨Dir.right, by simp [Dir.all], ?_⟩
        show (if 0 ≤ (x : Int) ∧ 0 ≤ (y : Int) + 1 ∧ (x : Int) < (s : Int)
            ∧ (y : Int) + 1 < ((heightT s (s * s) : Nat) : Int)
          then some (((x : Int)).toNat, ((y : Int) + 1).toNat) else none) =
          some (x', y')
        rw [heightT_square hs, if_pos (by omega)]
        simp only [Option.some.injEq, Prod.mk.injEq]
        constructor <;> omega
      · have hdx : (x' : Int) - (x : Int) = 0 := by omega
        have hdy : (y' : Int) - (y : Int) = 1 := by omega
        simp [Dir.fromNeighbors, hdx, hdy]
  | down =>
      rw [Dir.addPos, Prod.mk.injEq] at heq
      obtain ⟨h1, h2⟩ := heq
      constructor
      · refine List.mem_filterMap.mpr ⟨Dir.down, by simp [Dir.all], ?_⟩
        show (if 0 ≤ (x : Int) + 1 ∧ 0 ≤ (y : Int) ∧ (x : Int) + 1 < (s : Int)
            ∧ (y : Int) < ((heightT s (s * s) : Nat) : Int)
          then some (((x : Int) + 1).toNat, ((y : Int)).toNat) else none) =
          some (x', y')
        rw [heightT_square hs, if_pos (by omega)]
        simp only [Option.some.injEq, Prod.mk.injEq]
        constructor <;> omega
      · have hdx : (x' : Int) - (x : Int) = 1 := by omega
        have hdy : (y' : Int) - (y : Int) = 0 := by omega
        simp [Dir.fromNeighbors, hdx, hdy]
  | left =>
      rw [Dir.addPos, Prod.mk.injEq] at heq
      obtain ⟨h1, h2⟩ := heq
      constructor
      · refine List.mem_filterMap.mpr ⟨Dir.left, by simp [Dir.all], ?_⟩
        show (if 0 ≤ (x : Int) ∧ 0 ≤ (y : Int) - 1 ∧ (x : Int) < (s : Int)
            ∧ (y : Int) - 1 < ((heightT s (s * s) : Nat) : Int)
          then some (((x : Int)).toNat, ((y : Int) - 1).toNat) else none) =
          some (x', y')
        rw [heightT_square hs, if_pos (by omega)]
        simp only [Option.some.injEq, Prod.mk.injEq]
        constructor <;> omega
      · have hdx : (x' : Int) - (x : Int) = 0 := by omega
        have hdy : (y' : Int) - (y : Int) = -1 := by omega
        simp [Dir.fromNeighbors, hdx, hdy]

/-- Every entry of the neighbour enumeration of a square grid is in bounds
and is the `addPos` image of the source under some direction. -/
theorem getNeighborsPos_spec {s x y : Nat} (hs : 0 < s) {np : Nat × Nat}
    (h : np ∈ getNeighborsPos s (s * s) (x, y)) :
    np.1 < s ∧ np.2 < s ∧
    ∃ d : Dir, ((np.1 : Int), (np.2 : Int)) = d.addPos ((x : Int), (y : Int)) := by
  obtain ⟨d, _, hfd⟩ := List.mem_filterMap.mp h
  dsimp only at hfd
  rw [heightT_square hs] at hfd
  split at hfd
  next hcond =>
    rw [Option.some.injEq] at hfd
    subst hfd
    obtain ⟨hc1, hc2, hc3, hc4⟩ := hcond
    refine ⟨by omega, by omega, d, ?_⟩
    rw [Prod.mk.injEq]
    constructor <;> simp <;> omega
  · cases hfd

theorem addPos_inj_dir {d₁ d₂ : Dir} {p : Int × Int}
    (h : d₁.addPos p = d₂.addPos p) : d₁ = d₂ := by
  obtain ⟨a, b⟩ := p
  cases d₁ <;> cases d₂ <;> first
    | rfl
    | (rw [Dir.addPos, Dir.addPos, Prod.mk.injEq] at h; omega)

/-- No cell is its own neighbour. -/
theorem getNeighborsPos_ne_self {s x y : Nat} (hs : 0 < s) {np : Nat × Nat}
    (h : np ∈ getNeighborsPos s (s * s) (x, y)) : np ≠ (x, y) := by
  obtain ⟨_, _, d, hd⟩ := getNeighborsPos_spec hs h
  intro he
  subst he
  cases d <;> (rw [Dir.addPos, Prod.mk.injEq] at hd; omega)

/-- The neighbour positions of one cell are pairwise distinct (and so are
their linear indices). -/
theorem getNeighborsPos_pairwise {s x y : Nat} (hs : 0 < s) (hx : x < s)
    (_hy : y < s) :
    (getNeighborsPos s (s * s) (x, y)).Pairwise
      (fun a b => posIdx s a ≠ posIdx s b) := by
  refine List.pairwise_filterMap.mpr ?_
  have hall : Dir.all.Pairwise (· ≠ ·) := by decide
  refine hall.imp ?_
  intro d₁ d₂ hne b hb b' hb' heq
  rw [Option.mem_def] at hb hb'
  dsimp only at hb hb'
  rw [heightT_square hs] at hb hb'
  split at hb
  next hc1 =>
    split at hb'
    next hc2 =>
      rw [Option.some.injEq] at hb hb'
      subst hb hb'
      obtain ⟨hc11, hc12, hc13, hc14⟩ := hc1
      obtain ⟨hc21, hc22, hc23, hc24⟩ := hc2
      obtain ⟨hp1, hp2⟩ := posIdx_inj (by omega) (by omega) heq
      apply hne
      apply addPos_inj_dir (p := ((x : Int), (y : Int)))
      rw [Prod.ext_iff]
      constructor <;> omega
    · cases hb'
  · cases hb

/-- Characterisation of a full neighbour fold when the processed positions
are pairwise distinct and different from the source: each processed cell
ends up holding exactly the support set computed from the ORIGINAL domains,
and every other cell (the source in particular) is unchanged. -/
theorem processNeighbors_char {ct : Nat → Nat → Dir → Bool} {w : Nat} :
    ∀ {l : List (Nat × Nat)} {g g' : Grid} {s₀ s' : List Nat} {sp : Nat × Nat},
      processNeighbors ct w (g, s₀) sp l = .ok (g', s') →
      (∀ np ∈ l, posIdx w np ≠ posIdx w sp) →
      l.Pairwise (fun a b => posIdx w a ≠ posIdx w b) →
      (∀ np ∈ l, cellAt g' (posIdx w np) =
        support ct (cellAt g (posIdx w sp)) (cellAt g (posIdx w np))
          (Dir.fromNeighbors sp np)) ∧
      (∀ k, k ∉ l.map (posIdx w) → cellAt g' k = cellAt g k)
  | [], g, g', s₀, s', sp, h, hsrc, hpw => by
      rw [processNeighbors, Except.ok.injEq, Prod.mk.injEq] at h
      exact ⟨by simp, fun k _ => by rw [h.1]⟩
  | np :: rest, g, g', s₀, s', sp, h, hsrc, hpw => by
      rw [processNeighbors] at h
      split at h
      · simp at h
      next gs1 hok =>
        obtain ⟨ga, sa⟩ := gs1
        obtain ⟨Dn, Di, hDn, hDi, _, hg1, _⟩ := processNeighbor_ok hok
        obtain ⟨hph, hpw'⟩ := List.pairwise_cons.mp hpw
        have hlt := get?_lt_length hDn
        obtain ⟨ih1, ih2⟩ := processNeighbors_char
          h (fun np' hnp' => hsrc np' (List.mem_cons_of_mem _ hnp'))
          hpw'
        have hg1src : cellAt ga (posIdx w sp) = cellAt g (posIdx w sp) := by
          rw [hg1]
          exact cellAt_set_ne (Ne.symm (hsrc np (List.mem_cons_self _ _)))
        have hg1rest : ∀ np' ∈ rest,
            cellAt ga (posIdx w np') = cellAt g (posIdx w np') := by
          intro np' hnp'
          rw [hg1]
          exact cellAt_set_ne (Ne.symm (hph np' hnp'))
        refine ⟨?_, ?_⟩
        · intro np' hnp'
          rcases List.mem_cons.mp hnp' with rfl | hnp'
          · have hnotin : posIdx w np' ∉ rest.map (posIdx w) := by
              rw [List.mem_map]
              rintro ⟨np'', hnp'', heq⟩
              exact hph np'' hnp'' heq.symm
            rw [ih2 _ hnotin, hg1, cellAt_set_self hlt,
              cellAt_of_get? hDn, cellAt_of_get? hDi]
          · rw [ih1 np' hnp', hg1src, hg1rest np' hnp']
        · intro k hk
          have hk1 : k ∉ rest.map (posIdx w) := by
            intro hkk
            exact hk (by simp only [List.map, List.mem_cons]; exact Or.inr hkk)
          have hk2 : k ≠ posIdx w np := by
            intro hkk
            exact hk (by simp only [List.map, List.mem_cons]; exact Or.inl hkk)
          rw [ih2 _ hk1, hg1, cellAt_set_ne hk2]

/-- Every index on the stack after a neighbour fold was on the stack before
or is a processed neighbour's index. -/
theorem processNeighbors_stack_sub {ct : Nat → Nat → Dir → Bool} {w : Nat} :
    ∀ {l : List (Nat × Nat)} {g g' : Grid} {s₀ s' : List Nat} {sp : Nat × Nat},
      processNeighbors ct w (g, s₀) sp l = .ok (g', s') →
      ∀ j ∈ s', j ∈ s₀ ∨ j ∈ l.map (posIdx w)
  | [], g, g', s₀, s', sp, h, j, hj => by
      rw [processNeighbors, Except.ok.injEq, Prod.mk.injEq] at h
      exact Or.inl (h.2 ▸ hj)
  | np :: rest, g, g', s₀, s', sp, h, j, hj => by
      rw [processNeighbors] at h
      split at h
      · simp at h
      next gs1 hok =>
        obtain ⟨ga, sa⟩ := gs1
        obtain ⟨Dn, Di, _, _, _, _, hs1⟩ := processNeighbor_ok hok
        rcases processNeighbors_stack_sub h j hj with hj' | hj'
        · rw [hs1] at hj'
          split at hj'
          · rcases List.mem_cons.mp hj' with rfl | hj''
            · exact Or.inr (by simp)
            · exact Or.inl hj''
          · exact Or.inl hj'
        · exact Or.inr (List.mem_cons_of_mem _ hj')

/-- One pop of the work stack preserves the AC-3 invariant on a square
grid, keeps stack indices in range, and preserves the grid size. -/
theorem processCell_inv {ct : Nat → Nat → Dir → Bool} {s : Nat}
    {initDom : List Nat} {g g' : Grid} {st st' : List Nat} {i : Nat}
    (hs : 0 < s) (hlen : g.length = s * s)
    (hinv : Inv ct s s initDom g (i :: st))
    (hstk : ∀ j ∈ i :: st, j < s * s)
    (hok : processCell ct s g st i = .ok (g', st')) :
    Inv ct s s initDom g' st' ∧ (∀ j ∈ st', j < s * s) := by
  have hi : i < s * s := hstk i (List.mem_cons_self _ _)
  unfold processCell at hok
  rw [hlen, idxToPos_square hs] at hok
  have hxb : i / s < s ∧ i % s < s := idxToPos_bounds hs hi
  have hspidx : posIdx s (i / s, i % s) = i := by
    have h1 := posIdx_idxToPos (s := s) (i := i) hs
    rw [idxToPos_square hs] at h1
    exact h1
  have hsrc : ∀ np ∈ getNeighborsPos s (s * s) (i / s, i % s),
      posIdx s np ≠ posIdx s (i / s, i % s) := by
    rintro ⟨a, b⟩ hnp hpe
    obtain ⟨h1, h2, _⟩ := getNeighborsPos_spec hs hnp
    dsimp only at h1 h2
    obtain ⟨he1, he2⟩ := posIdx_inj h2 hxb.2 hpe
    exact getNeighborsPos_ne_self hs hnp (by rw [he1, he2])
  have hpw := getNeighborsPos_pairwise hs hxb.1 hxb.2
  obtain ⟨hchar1, hchar2⟩ := processNeighbors_char hok hsrc hpw
  constructor
  · -- the invariant
    intro x y x' y' d hadj
    obtain ⟨hxh, hyw, hx'h, hy'w, heq⟩ := hadj
    by_cases hji : posIdx s (x, y) = i
    · -- edges out of the popped cell are freshly support-consistent
      right; right
      obtain ⟨hex, hey⟩ := posIdx_inj hyw hxb.2 (hji.trans hspidx.symm)
      subst hex
      subst hey
      obtain ⟨hmem, hdir⟩ := AdjN_mem (s := s) ⟨hxh, hyw, hx'h, hy'w, heq⟩
      have hsrcun : cellAt g' (posIdx s (i / s, i % s)) =
          cellAt g (posIdx s (i / s, i % s)) := by
        refine hchar2 _ ?_
        rw [List.mem_map]
        rintro ⟨np, hnp, hpe⟩
        exact hsrc np hnp hpe
      intro q hq
      rw [hchar1 (x', y') hmem, hdir, mem_support] at hq
      obtain ⟨_, p, hp, hc⟩ := hq
      exact ⟨p, by rw [hsrcun]; exact hp, hc⟩
    · by_cases hjst : posIdx s (x, y) ∈ st
      · exact Or.inl (processNeighbors_stack_grow hok _ hjst)
      · have hnotin : posIdx s (x, y) ∉ i :: st := by
          simp [hji, hjst]
        by_cases hch : cellAt g' (posIdx s (x, y)) = cellAt g (posIdx s (x, y))
        · rcases hinv x y x' y' d ⟨hxh, hyw, hx'h, hy'w, heq⟩ with hm | hinit | hcons
          · exact absurd hm hnotin
          · exact Or.inr (Or.inl (hch ▸ hinit))
          · refine Or.inr (Or.inr ?_)
            intro q hq
            have hsub : cellAt g' (posIdx s (x', y')) ⊆
                cellAt g (posIdx s (x', y')) :=
              (processNeighbors_pw hok _).subset
            obtain ⟨p, hp, hc⟩ := hcons q (hsub hq)
            exact ⟨p, hch ▸ hp, hc⟩
        · exact Or.inl (processNeighbors_changed_mem hok _ hch)
  · -- stack indices stay in range
    intro j hj
    rcases processNeighbors_stack_sub hok j hj with hj' | hj'
    · exact hstk j (List.mem_cons_of_mem _ hj')
    · rw [List.mem_map] at hj'
      obtain ⟨np, hnp, rfl⟩ := hj'
      obtain ⟨h1, h2, _⟩ := getNeighborsPos_spec hs hnp
      obtain ⟨a, b⟩ := np
      exact posIdx_lt h1 h2

theorem propagateGo_inv {ct : Nat → Nat → Dir → Bool} {s : Nat}
    {initDom : List Nat} (hs : 0 < s) :
    ∀ {fuel : Nat} {g gF : Grid} {st : List Nat},
      g.length = s * s → Inv ct s s initDom g st → (∀ j ∈ st, j < s * s) →
      propagateGo ct s fuel g st = .ok gF → Inv ct s s initDom gF [] := by
  intro fuel
  induction fuel with
  | zero =>
      intro g gF st hlen hinv hstk h
      cases st with
      | nil => cases h; exact hinv
      | cons i rest => simp [propagateGo] at h
  | succ fuel ih =>
      intro g gF st hlen hinv hstk h
      cases st with
      | nil => cases h; exact hinv
      | cons i rest =>
          rw [propagateGo] at h
          split at h
          · simp at h
          next gs hok =>
            obtain ⟨g1, s1⟩ := gs
            obtain ⟨hinv', hstk'⟩ := processCell_inv hs hlen hinv hstk hok
            have hlen' : g1.length = s * s :=
              (processCell_length hok).trans hlen
            exact ih hlen' hinv' hstk' h

theorem observe_inv {ct : Nat → Nat → Dir → Bool} {s : Nat}
    {initDom : List Nat} {r1 r2 : Nat} {g g₁ : Grid} {i : Nat}
    (hinv : Inv ct s s initDom g [])
    (hobs : observe r1 r2 g = some (i, g₁)) :
    Inv ct s s initDom g₁ [i] := by
  intro x y x' y' d hadj
  by_cases hji : posIdx s (x, y) = i
  · exact Or.inl (by simp [hji])
  · rcases hinv x y x' y' d hadj with hm | hinit | hcons
    · simp at hm
    · refine Or.inr (Or.inl ?_)
      obtain ⟨_, _, _, ⟨p, hp, hg⟩, _, _⟩ := observe_some hobs
      subst hg
      rw [cellAt_set_ne hji]
      exact hinit
    · refine Or.inr (Or.inr ?_)
      intro q hq
      have hsub : cellAt g₁ (posIdx s (x', y')) ⊆
          cellAt g (posIdx s (x', y')) := (observe_pw hobs _).subset
      obtain ⟨p, hp, hc⟩ := hcons q (hsub hq)
      obtain ⟨_, _, _, ⟨p', hp', hg⟩, _, _⟩ := observe_some hobs
      subst hg
      exact ⟨p, by rw [cellAt_set_ne hji]; exact hp, hc⟩

theorem loopGo_inv {ct : Nat → Nat → Dir → Bool} {s : Nat}
    {initDom : List Nat} {rnd : Nat → Nat × Nat} (hs : 0 < s) :
    ∀ {fuel round : Nat} {g gF : Grid},
      g.length = s * s → Inv ct s s initDom g [] →
      loopGo ct s rnd fuel round g = .ok gF → Inv ct s s initDom gF [] := by
  intro fuel
  induction fuel with
  | zero => intro round g gF hlen hinv h; simp [loopGo] at h
  | succ fuel ih =>
      intro round g gF hlen hinv h
      rw [loopGo] at h
      split at h
      · cases h; exact hinv
      next i g1 hobs =>
        split at h
        · simp at h
        next g2 hpro =>
          have hinv1 := observe_inv hinv hobs
          have hi : i < s * s := hlen ▸ (observe_some hobs).1
          have hlen1 : g1.length = s * s := (observe_length hobs).trans hlen
          have hinv2 := propagateGo_inv hs hlen1 hinv1
            (by intro j hj; simp only [List.mem_singleton] at hj; subst hj; exact hi)
            hpro
          have hlen2 : g2.length = s * s := (propagate_length hpro).trans hlen1
          exact ih hlen2 hinv2 h

theorem solveGrid_inv {ct : Nat → Nat → Dir → Bool} {initDom : List Nat}
    {s : Nat} {rnd : Nat → Nat × Nat} {gF : Grid} (hs : 0 < s)
    (hsolve : solveGrid ct initDom s s rnd = .ok gF) :
    Inv ct s s initDom gF [] := by
  refine loopGo_inv hs (by simp) ?_ hsolve
  intro x y x' y' d hadj
  obtain ⟨hx, hy, _, _, _⟩ := hadj
  exact Or.inr (Or.inl (cellAt_replicate (posIdx_lt hx hy)))

theorem solveGrid_length {ct : Nat → Nat → Dir → Bool} {initDom : List Nat}
    {w h : Nat} {rnd : Nat → Nat × Nat} {gF : Grid}
    (hsolve : solveGrid ct initDom w h rnd = .ok gF) : gF.length = w * h := by
  unfold solveGrid at hsolve
  have := loopGo_length hsolve
  simpa using this

theorem render_ok_square {pix0 : Nat → Color} {w h : Nat} {g : Grid}
    {img : ImageM} (hr : render pix0 w h g = .ok img) (hw : 0 < w)
    (hh : 0 < h) : w = h := by
  unfold render at hr
  obtain ⟨_, _, _, hbnd, hjh, _, _⟩ :=
    renderGo_ok_char (w := w) (h := h) rfl rfl (by simp [newImage]) hr
      (List.nodup_range h)
  have h1 : h - 1 < w := hbnd (h - 1) (List.mem_range.mpr (by omega)) hw
  have h2 : w - 1 < h := hjh 0 (List.mem_range.mpr hh) (w - 1) (by omega)
  omega

/-- C1 counterexample: solution soundness fails as stated.  With the single
gradient test pattern (which is not self-compatible: its constraints byte
for the pair `(0, 0)` is `0b0000`, as the repository's own test expects),
`generate(2, 2)` succeeds — every cell starts collapsed, observe returns
"done" at once and propagation never runs — yet the horizontally adjacent
cells `(0,0)` and `(0,1)` of the final grid violate the constraints table:
`C(pattern(u), pattern(v), Right) = 0`. -/
theorem C1_counterexample :
    generate (ctFun [patGrad]) (pixFun [patGrad]) [0] 2 2 rndZero =
      .ok ⟨2, 2, [(0, 0, 0), (0, 0, 0), (0, 0, 0), (0, 0, 0)]⟩ ∧
    solveGrid (ctFun [patGrad]) [0] 2 2 rndZero = .ok [[0], [0], [0], [0]] ∧
    AdjN 2 2 0 0 0 1 Dir.right ∧
    ctFun [patGrad] ((cellAt [[0], [0], [0], [0]] (posIdx 2 (0, 0))).headD 0)
      ((cellAt [[0], [0], [0], [0]] (posIdx 2 (0, 1))).headD 0) Dir.right =
      false := by
  exact ⟨rfl, rfl, by decide, by decide⟩

/-- C1 (corrected), amended claim: solution soundness holds for every call
to `generate` whose pattern list has at least two entries (the amendment the
counterexample forces; with two or more patterns every cell starts
uncollapsed, so every cell's final singleton was produced by an observe or
propagate write whose outgoing edges were re-checked).  For every such call
that returns an output raster, every pair of orthogonally adjacent cells
`u, v` of the final entropy grid with direction `d` from `u` to `v`
satisfies `C(pattern(u), pattern(v), d) = 1`. -/
theorem C1_soundness (ct : Nat → Nat → Dir → Bool) (pix0 : Nat → Color)
    (initDom : List Nat) (w h : Nat) (rnd : Nat → Nat × Nat) (img : ImageM)
    (hP : 2 ≤ initDom.length)
    (hgen : generate ct pix0 initDom w h rnd = .ok img) :
    ∀ gF, solveGrid ct initDom w h rnd = .ok gF →
      ∀ x y x' y' d, AdjN w h x y x' y' d →
        ct ((cellAt gF (posIdx w (x, y))).headD 0)
          ((cellAt gF (posIdx w (x', y'))).headD 0) d = true := by
  intro gF hsolve x y x' y' d hadj
  unfold generate at hgen
  rw [hsolve] at hgen
  dsimp only at hgen
  split at hgen
  swap
  · simp at hgen
  next hall =>
  obtain ⟨hxh, hyw, hx'h, hy'w, heq⟩ := hadj
  have hw0 : 0 < w := Nat.lt_of_le_of_lt (Nat.zero_le y) hyw
  have hh0 : 0 < h := Nat.lt_of_le_of_lt (Nat.zero_le x) hxh
  have hwh : w = h := render_ok_square hgen hw0 hh0
  subst hwh
  have hinv := solveGrid_inv hw0 hsolve
  have hlen : gF.length = w * w := solveGrid_length hsolve
  have hone : ∀ k, k < gF.length → (cellAt gF k).length = 1 := by
    intro k hk
    rw [cellAt_eq_getElem hk]
    have hmem := List.all_eq_true.mp hall _ (List.getElem_mem hk)
    simpa using hmem
  rcases hinv x y x' y' d ⟨hxh, hyw, hx'h, hy'w, heq⟩ with hm | hinit | hcons
  · simp at hm
  · exfalso
    have hj : posIdx w (x, y) < gF.length := hlen ▸ posIdx_lt hxh hyw
    have h1 := hone _ hj
    rw [hinit] at h1
    omega
  · have hn : posIdx w (x', y') < gF.length := hlen ▸ posIdx_lt hx'h hy'w
    have hj : posIdx w (x, y) < gF.length := hlen ▸ posIdx_lt hxh hyw
    obtain ⟨qn, hqn⟩ := List.length_eq_one.mp (hone _ hn)
    obtain ⟨pj, hpj⟩ := List.length_eq_one.mp (hone _ hj)
    have hq : (cellAt gF (posIdx w (x', y'))).headD 0 ∈
        cellAt gF (posIdx w (x', y')) := by
      rw [hqn]; simp
    obtain ⟨p, hp, hc⟩ := hcons _ hq
    have hpe : p = (cellAt gF (posIdx w (x, y))).headD 0 := by
      rw [hpj] at hp ⊢
      simpa using hp
    rw [← hpe]
    exact hc

/-- Witness for the amended C1: the all-allowed two-pattern 2×2 run succeeds
and its adjacent collapsed cells satisfy the (trivially true) table. -/
theorem C1_soundness_witness :
    ctAll ((cellAt [[0], [0], [0], [0]] (posIdx 2 (0, 0))).headD 0)
      ((cellAt [[0], [0], [0], [0]] (posIdx 2 (0, 1))).headD 0)
      Dir.right = true :=
  C1_soundness ctAll pixZero [0, 1] 2 2 rndZero
    ⟨2, 2, [(0, 0, 0), (0, 0, 0), (0, 0, 0), (0, 0, 0)]⟩ (by decide) rfl
    [[0], [0], [0], [0]] rfl 0 0 0 1 Dir.right (by decide)

end Wfc
